import Mathlib

/-!
# rclancey/htpasswd: a flat-file credential store

A shallow embedding of `auth.go`.  Go strings are byte sequences, so a string is a
list of bytes.  The password file is one such string; the write operations return the
error (if any) together with the content of the file after the call.

The Go standard library functions that `auth.go` calls (`bufio.Reader.ReadString`,
`strings.TrimSpace`, `strings.Split`, `strings.Join`, `url.QueryEscape`,
`url.ParseQuery`, `url.Values`) are embedded from their Go definitions.  `bcrypt` is a
parameter (`Hasher`), and `fsutil.ReadLocked` / `fsutil.UpdateLocked` follow the contract
the specification gives for the locked store accessor.
-/

namespace HTPasswd

/-- One byte of a Go string. -/
abbrev Byte := Fin 256

/-- Go `string`: a sequence of bytes. -/
abbrev Str := List Byte

/-- The bytes of an ASCII string literal. -/
def lit (s : String) : Str := s.toList.map fun c => Fin.ofNat c.toNat

/-- The byte `'\n'`. -/
def nl : Byte := 10

/-- The byte `':'`. -/
def colon : Byte := 58

/-! ## `bufio`, `strings` -/

/-- The lines that successive calls of `bufio.Reader.ReadString('\n')` return before the
call that reports `io.EOF`: each one ends with its `'\n'`.  The bytes after the last
`'\n'` come back together with `io.EOF`; every loop of `auth.go` leaves the loop on that
error without looking at them, so they are not part of the result. -/
def readLines : Str → List Str
  | [] => []
  | b :: rest =>
    if b = nl then [nl] :: readLines rest
    else match readLines rest with
      | line :: more => (b :: line) :: more
      | [] => []

/-- Go `strings.Split(s, sep)` for a separator of one byte. -/
def Split : Str → Byte → List Str
  | [], _ => [[]]
  | b :: rest, sep =>
    if b = sep then [] :: Split rest sep
    else match Split rest sep with
      | field :: more => (b :: field) :: more
      | [] => [[b]]

/-- Go `strings.Join(parts, sep)` for a separator of one byte. -/
def Join : List Str → Byte → Str
  | [], _ => []
  | [p], _ => p
  | p :: q :: more, sep => p ++ sep :: Join (q :: more) sep

/-- Go `strings.Cut(s, sep)` for a separator of one byte, without the `found` flag:
the text before the first `sep` and the text after it (all of `s` and `""` when `sep`
does not occur). -/
def Cut : Str → Byte → Str × Str
  | [], _ => ([], [])
  | b :: rest, sep =>
    if b = sep then ([], rest) else ((b :: (Cut rest sep).1), (Cut rest sep).2)

/-- The UTF-8 encodings of the code points for which Go's `unicode.IsSpace` holds:
U+0009..U+000D, U+0020, U+0085, U+00A0, U+1680, U+2000..U+200A, U+2028, U+2029, U+202F,
U+205F and U+3000. -/
def spaceRunes : List Str :=
  [[0x09], [0x0A], [0x0B], [0x0C], [0x0D], [0x20],
   [0xC2, 0x85], [0xC2, 0xA0],
   [0xE1, 0x9A, 0x80],
   [0xE2, 0x80, 0x80], [0xE2, 0x80, 0x81], [0xE2, 0x80, 0x82], [0xE2, 0x80, 0x83],
   [0xE2, 0x80, 0x84], [0xE2, 0x80, 0x85], [0xE2, 0x80, 0x86], [0xE2, 0x80, 0x87],
   [0xE2, 0x80, 0x88], [0xE2, 0x80, 0x89], [0xE2, 0x80, 0x8A],
   [0xE2, 0x80, 0xA8], [0xE2, 0x80, 0xA9], [0xE2, 0x80, 0xAF],
   [0xE2, 0x81, 0x9F],
   [0xE3, 0x80, 0x80]]

/-- Remove one leading member of `runes` from `s`, if `s` starts with one. -/
def stripRune : List Str → Str → Option Str
  | [], _ => none
  | r :: more, s => if r.isPrefixOf s then some (s.drop r.length) else stripRune more s

/-- Remove leading members of `runes` from `s` until none is left (at most `fuel`
of them). -/
def trimRunes (runes : List Str) : Nat → Str → Str
  | 0, s => s
  | fuel + 1, s =>
    match stripRune runes s with
    | some rest => trimRunes runes fuel rest
    | none => s

/-- Go `strings.TrimLeftFunc(s, unicode.IsSpace)`: the decoder reads one rune at a time
from the front and stops at the first rune that is not white space (an invalid byte
decodes to U+FFFD, which is not white space). -/
def TrimLeft (s : Str) : Str := trimRunes spaceRunes s.length s

/-- Go `strings.TrimRightFunc(s, unicode.IsSpace)`: the same from the back, where
`utf8.DecodeLastRuneInString` yields a white-space rune exactly when `s` ends with the
encoding of one. -/
def TrimRight (s : Str) : Str :=
  (trimRunes (spaceRunes.map List.reverse) s.length s.reverse).reverse

/-- Go `strings.TrimSpace(s)`: `s` without leading and trailing white space, as defined
by Unicode. -/
def TrimSpace (s : Str) : Str := TrimRight (TrimLeft s)

/-! ## `net/url` -/

/-- Go `url.shouldEscape(c, encodeQueryComponent)`: everything is escaped except ASCII
letters, digits and `-`, `_`, `.`, `~`. -/
def shouldEscape (c : Byte) : Bool :=
  if (97 ≤ c.val ∧ c.val ≤ 122) ∨ (65 ≤ c.val ∧ c.val ≤ 90) ∨ (48 ≤ c.val ∧ c.val ≤ 57) then false
  else if c = 45 ∨ c = 95 ∨ c = 46 ∨ c = 126 then false
  else true

/-- Go `upperhex`. -/
def upperhex : Str := lit "0123456789ABCDEF"

/-- The bytes `url.escape` writes for one input byte in query-component mode. -/
def escapeByte (c : Byte) : Str :=
  if c = 32 then [43]
  else if shouldEscape c then [37, upperhex.getD (c.val / 16) 0, upperhex.getD (c.val % 16) 0]
  else [c]

/-- Go `url.QueryEscape(s)`. -/
def QueryEscape : Str → Str
  | [] => []
  | c :: rest => escapeByte c ++ QueryEscape rest

/-- Go `url.ishex`. -/
def ishex (c : Byte) : Bool :=
  (48 ≤ c.val ∧ c.val ≤ 57) ∨ (97 ≤ c.val ∧ c.val ≤ 102) ∨ (65 ≤ c.val ∧ c.val ≤ 70)

/-- Go `url.unhex`. -/
def unhex (c : Byte) : Nat :=
  if 48 ≤ c.val ∧ c.val ≤ 57 then c.val - 48
  else if 97 ≤ c.val ∧ c.val ≤ 102 then c.val - 97 + 10
  else if 65 ≤ c.val ∧ c.val ≤ 70 then c.val - 65 + 10
  else 0

/-- Go `url.QueryUnescape(s)`: `none` stands for the `EscapeError` returned when a `'%'`
is not followed by two hexadecimal digits. -/
def QueryUnescape : Str → Option Str
  | [] => some []
  | c :: rest =>
    if c = 37 then
      match rest with
      | h1 :: h2 :: rest2 =>
        if ishex h1 && ishex h2 then
          (QueryUnescape rest2).map (Fin.ofNat (unhex h1 * 16 + unhex h2) :: ·)
        else none
      | _ => none
    else if c = 43 then (QueryUnescape rest).map ((32 : Byte) :: ·)
    else (QueryUnescape rest).map (c :: ·)

/-- Go `url.Values` (`map[string][]string`), kept as the list of its (key, value) pairs in
the order the values were added: the values of one key are the pairs with that key, in
order. -/
abbrev Values := List (Str × Str)

/-- Go `Values.Get(key)`: the first value of `key`, or `""`. -/
def Values.Get : Values → Str → Str
  | [], _ => []
  | (k, v) :: rest, key => if k = key then v else Values.Get rest key

/-- Go `Values.Set(key, value)`: `key` gets the single value `value`. -/
def Values.Set (vals : Values) (key value : Str) : Values :=
  vals.filter (fun p => p.1 ≠ key) ++ [(key, value)]

/-- Go `m[key] = append(m[key], value)`. -/
def Values.Add (vals : Values) (key value : Str) : Values :=
  vals ++ [(key, value)]

/-- Go `a < b` on strings: bytewise lexicographic order. -/
def strLess : Str → Str → Bool
  | _, [] => false
  | [], _ :: _ => true
  | a :: as, b :: bs => if a.val < b.val then true else if b.val < a.val then false else strLess as bs

/-- Insert a pair into a list sorted by key, before the first pair whose key is not
smaller. -/
def insertByKey (p : Str × Str) : Values → Values
  | [] => [p]
  | q :: rest => if strLess q.1 p.1 then q :: insertByKey p rest else p :: q :: rest

/-- The pairs in the order `Values.Encode` visits them: keys ascending (`slices.Sort`),
the values of one key in the order they were added. -/
def sortByKey : Values → Values
  | [] => []
  | p :: rest => insertByKey p (sortByKey rest)

/-- The loop of `Values.Encode` over the sorted pairs; `buf` is the `strings.Builder`. -/
def encodeInto : Values → Str → Str
  | [], buf => buf
  | (k, v) :: rest, buf =>
    let buf := if buf.length > 0 then buf ++ [38] else buf
    encodeInto rest (buf ++ QueryEscape k ++ [61] ++ QueryEscape v)

/-- Go `Values.Encode()`: `"k1=v1&k2=v2"`, sorted by key. -/
def Values.Encode (vals : Values) : Str := encodeInto (sortByKey vals) []

/-- The loop of Go `url.parseQuery` over the `'&'`-separated pieces of the query (each
iteration cuts the next piece off the query; the loop ends when the rest is empty).
`err` says whether an error has been recorded. -/
def parseQuery : List Str → Values → Bool → Values × Bool
  | [], m, err => (m, err)
  | key :: more, m, err =>
    if (59 : Byte) ∈ key then parseQuery more m true
    else if key = [] then parseQuery more m err
    else
      match QueryUnescape (Cut key 61).1 with
      | none => parseQuery more m true
      | some k =>
        match QueryUnescape (Cut key 61).2 with
        | none => parseQuery more m true
        | some v => parseQuery more (m.Add k v) err

/-- Go `url.ParseQuery(query)` (Go 1.17 and later, where `';'` is not a separator):
the values parsed, and whether an error is returned with them. -/
def ParseQuery (query : Str) : Values × Bool := parseQuery (Split query 38) [] false

/-! ## External collaborators -/

/-- The outcome of `bcrypt.CompareHashAndPassword`: `nil`,
`bcrypt.ErrMismatchedHashAndPassword`, or any other error. -/
inductive Verdict
  | matched
  | mismatch
  | failure
deriving DecidableEq, Repr

/-- The password hasher `golang.org/x/crypto/bcrypt`, a parameter of the model:
`GenerateFromPassword` returns the hash or fails, `CompareHashAndPassword` takes the
stored hash and the password. -/
structure Hasher where
  GenerateFromPassword : Str → Option Str
  CompareHashAndPassword : Str → Str → Verdict

/-- The errors `auth.go` returns, one constructor per message. -/
inductive Error
  | noUsername
  | cantEncrypt
  | alreadyExists (username : Str)
  | doesNotExist (username : Str)
  | cantCompare
deriving DecidableEq, Repr

/-- The fields of `auth.User` that `auth.go` reads and writes. -/
structure User where
  Username : Str := []
  ID : Str := []
  FirstName : Str := []
  LastName : Str := []
  FullName : Str := []
  Email : Str := []
  Avatar : Str := []
  Provider : Str := []
deriving DecidableEq, Repr

/-- Modelled from the spec: `fsutil.ReadLocked(path, body)` passes the content of the file
to `body` under a shared lock and propagates the failure of `body`. -/
def ReadLocked {α : Type} (file : Str) (body : Str → Except Error α) : Except Error α :=
  body file

/-- Modelled from the spec: `fsutil.UpdateLocked(path, body)` passes the old content to
`body` together with an empty output; when `body` succeeds the output replaces the content
of the file, when it fails the file is left exactly as it was.  The result is the error
and the content of the file after the call. -/
def UpdateLocked (file : Str) (body : Str → Except Error Str) : Option Error × Str :=
  match body file with
  | .ok wf => (none, wf)
  | .error e => (some e, file)

/-! ## `auth.go` -/

/-- The loop of `GetUserByEmail` over the lines of the file. -/
def getUserByEmailLoop (email : Str) : List Str → Option User
  | [] => none
  | line :: rest =>
    let parts := Split (TrimSpace line) colon
    if parts.length ≥ 3 then
      let (vals, err) := ParseQuery (parts.getD 2 [])
      if err = false ∧ vals.Get (lit "email") = email then
        some {
          Username := parts.getD 0 [],
          ID := vals.Get (lit "id"),
          FirstName := vals.Get (lit "first_name"),
          LastName := vals.Get (lit "last_name"),
          FullName := vals.Get (lit "full_name"),
          Email := vals.Get (lit "email"),
          Avatar := vals.Get (lit "avatar"),
          Provider := lit "htpasswd" }
      else getUserByEmailLoop email rest
    else getUserByEmailLoop email rest

/-- `HTPasswd.GetUserByEmail(email)` on a file with content `file`. -/
def GetUserByEmail (file : Str) (email : Str) : Except Error (Option User) :=
  ReadLocked file fun f => .ok (getUserByEmailLoop email (readLines f))

/-- The username `CreateUser` picks: the first non-empty of `Username`, `Email`, `ID`. -/
def canonicalUsername (user : User) : Option Str :=
  if user.Username ≠ [] then some user.Username
  else if user.Email ≠ [] then some user.Email
  else if user.ID ≠ [] then some user.ID
  else none

/-- The loop of `CreateUser` over the lines of the file; `wf` is what has been written
to the output so far. -/
def createUserLoop (username : Str) : List Str → Str → Except Error Str
  | [], wf => .ok wf
  | line :: rest, wf =>
    let parts := Split (TrimSpace line) colon
    if parts.length ≥ 2 ∧ parts.getD 0 [] = username then
      .error (.alreadyExists username)
    else createUserLoop username rest (wf ++ (TrimSpace line ++ [nl]))

/-- The `url.Values` that `CreateUser` builds from the user. -/
def userValues (user : User) : Values :=
  let vals : Values := []
  let vals := if user.ID ≠ [] then vals.Set (lit "id") user.ID else vals
  let vals := if user.FirstName ≠ [] then vals.Set (lit "first_name") user.FirstName else vals
  let vals := if user.LastName ≠ [] then vals.Set (lit "last_name") user.LastName else vals
  let vals := if user.FullName ≠ [] then vals.Set (lit "full_name") user.FullName else vals
  let vals := if user.Email ≠ [] then vals.Set (lit "email") user.Email else vals
  let vals := if user.Avatar ≠ [] then vals.Set (lit "avatar") user.Avatar else vals
  vals

/-- `HTPasswd.CreateUser(user, password)` on a file with content `file`: the error, and
the content of the file after the call. -/
def CreateUser (H : Hasher) (file : Str) (user : User) (password : Str) : Option Error × Str :=
  match canonicalUsername user with
  | none => (some .noUsername, file)
  | some name =>
    let username := QueryEscape name
    match H.GenerateFromPassword password with
    | none => (some .cantEncrypt, file)
    | some cpw =>
      UpdateLocked file fun rf =>
        match createUserLoop username (readLines rf) [] with
        | .error e => .error e
        | .ok wf =>
          let vals := userValues user
          let parts := [username, cpw, vals.Encode]
          .ok (wf ++ (Join parts colon ++ [nl]))

/-- The loop of `UpdatePassword` over the lines of the file. -/
def updatePasswordLoop (username cpw : Str) : List Str → Bool → Str → Except Error Str
  | [], found, wf => if found then .ok wf else .error (.doesNotExist username)
  | line :: rest, found, wf =>
    let parts := Split (TrimSpace line) colon
    if parts.length ≥ 2 ∧ parts.getD 0 [] = username then
      let parts := parts.set 1 cpw
      updatePasswordLoop username cpw rest true (wf ++ (Join parts colon ++ [nl]))
    else updatePasswordLoop username cpw rest found (wf ++ (TrimSpace line ++ [nl]))

/-- `HTPasswd.UpdatePassword(username, password)` on a file with content `file`. -/
def UpdatePassword (H : Hasher) (file : Str) (username password : Str) : Option Error × Str :=
  let username := QueryEscape username
  match H.GenerateFromPassword password with
  | none => (some .cantEncrypt, file)
  | some cpw =>
    UpdateLocked file fun rf => updatePasswordLoop username cpw (readLines rf) false []

/-- The loop of `DeleteUser` over the lines of the file. -/
def deleteUserLoop (username : Str) : List Str → Str → Except Error Str
  | [], wf => .ok wf
  | line :: rest, wf =>
    let parts := Split (TrimSpace line) colon
    if parts.length ≥ 2 ∧ parts.getD 0 [] = username then
      deleteUserLoop username rest wf
    else deleteUserLoop username rest (wf ++ (TrimSpace line ++ [nl]))

/-- `HTPasswd.DeleteUser(username)` on a file with content `file`. -/
def DeleteUser (file : Str) (username : Str) : Option Error × Str :=
  let username := QueryEscape username
  UpdateLocked file fun rf => deleteUserLoop username (readLines rf) []

/-- The `auth.User` that `Authenticate` returns for a line whose hash matched. -/
def authenticatedUser (username : Str) (parts : List Str) : User :=
  let found : User := { Username := username }
  if parts.length ≥ 3 then
    let (vals, err) := ParseQuery (parts.getD 2 [])
    if err = false then
      { found with
        ID := vals.Get (lit "id"),
        FirstName := vals.Get (lit "first_name"),
        LastName := vals.Get (lit "last_name"),
        FullName := vals.Get (lit "full_name"),
        Email := vals.Get (lit "email"),
        Avatar := vals.Get (lit "avatar"),
        Provider := lit "htpasswd" }
    else found
  else found

/-- The loop of `Authenticate` over the lines of the file. -/
def authenticateLoop (H : Hasher) (username xusername password : Str) :
    List Str → Except Error (Option User)
  | [] => .ok none
  | line :: rest =>
    let parts := Split (TrimSpace line) colon
    if parts.length ≥ 2 ∧ parts.getD 0 [] = xusername then
      match H.CompareHashAndPassword (parts.getD 1 []) password with
      | .matched => .ok (some (authenticatedUser username parts))
      | .mismatch => .ok none
      | .failure => .error .cantCompare
    else authenticateLoop H username xusername password rest

/-- `HTPasswd.Authenticate(username, password)` on a file with content `file`. -/
def Authenticate (H : Hasher) (file : Str) (username password : Str) :
    Except Error (Option User) :=
  let xusername := QueryEscape username
  ReadLocked file fun f => authenticateLoop H username xusername password (readLines f)

/-! ## Vocabulary of the statements -/

/-- The text written by a loop that writes each member of `xs` followed by `'\n'`. -/
def unlines : List Str → Str
  | [] => []
  | x :: xs => x ++ nl :: unlines xs

/-- No member of `runes` is at the front of `s`. -/
def NoLead (runes : List Str) (s : Str) : Prop := ∀ r ∈ runes, ¬ r <+: s

/-- No white-space rune is at the back of `s`. -/
def NoTrail (s : Str) : Prop := ∀ r ∈ spaceRunes, ¬ r <:+ s

/-- A string that `strings.TrimSpace` leaves as it is: no white space at either end. -/
def Trimmed (s : Str) : Prop := NoLead spaceRunes s ∧ NoTrail s

/-- The lines of the file as every loop of `auth.go` looks at them: read up to `'\n'`,
then passed through `strings.TrimSpace`. -/
def records (file : Str) : List Str := (readLines file).map TrimSpace

/-- The test `len(parts) >= 2 && parts[0] == username` on the fields of a trimmed line. -/
def hasKey (username : Str) (t : Str) : Bool :=
  decide ((Split t colon).length ≥ 2 ∧ (Split t colon).getD 0 [] = username)

/-- The file holds a record whose username field is `username`. -/
def hasRecord (file username : Str) : Bool := (records file).any (hasKey username)

/-- The first record of the file whose username field is `username`. -/
def firstRecord (file username : Str) : Option Str := (records file).find? (hasKey username)

/-- The line `UpdatePassword` writes for a trimmed line of the file. -/
def setHash (username cpw : Str) (t : Str) : Str :=
  if hasKey username t then Join ((Split t colon).set 1 cpw) colon else t

/-- What `Authenticate` returns once the scan has stopped at a record, or at the end of
the file. -/
def verdictResult (H : Hasher) (username password : Str) :
    Option Str → Except Error (Option User)
  | none => .ok none
  | some t =>
    match H.CompareHashAndPassword ((Split t colon).getD 1 []) password with
    | .matched => .ok (some (authenticatedUser username (Split t colon)))
    | .mismatch => .ok none
    | .failure => .error .cantCompare

/-- The bytes `url.QueryEscape` can write: ASCII letters, digits, `-`, `_`, `.`, `~`, `%`
and `+`. -/
def escSafe (b : Byte) : Bool :=
  (97 ≤ b.val ∧ b.val ≤ 122) ∨ (65 ≤ b.val ∧ b.val ≤ 90) ∨ (48 ≤ b.val ∧ b.val ≤ 57)
    ∨ b = 45 ∨ b = 95 ∨ b = 46 ∨ b = 126 ∨ b = 37 ∨ b = 43

/-- A hasher for the worked examples: the hash of a password is its percent-encoding, and
a stored hash matches the passwords with that encoding. -/
def demoHasher : Hasher where
  GenerateFromPassword := fun password => some (QueryEscape password)
  CompareHashAndPassword := fun hash password =>
    if hash = QueryEscape password then .matched else .mismatch

/-- The line `CreateUser` appends for the user, without its `'\n'`. -/
def newRecord (username cpw : Str) (user : User) : Str :=
  Join [username, cpw, (userValues user).Encode] colon

/-- The text `Values.Encode` writes for one pair: `key=value`, both percent-encoded. -/
def pairText (p : Str × Str) : Str := QueryEscape p.1 ++ 61 :: QueryEscape p.2

/-- The bytes `Values.Encode` can write: those of `url.QueryEscape`, `=` and `&`. -/
def encSafe (b : Byte) : Bool := escSafe b || b = 61 || b = 38

/-- The byte starts the encoding of a white-space rune. -/
def leadByte (b : Byte) : Bool := spaceRunes.any fun r => r.head? = some b

/-- The byte ends the encoding of a white-space rune. -/
def trailByte (b : Byte) : Bool := spaceRunes.any fun r => r.getLast? = some b

/-- The lines of a file put one after the other. -/
def concatLines : List Str → Str
  | [] => []
  | line :: more => line ++ concatLines more

/-- The test of `GetUserByEmail` on a trimmed line: at least three fields, an attribute
field that parses, and `email` as its `email` attribute. -/
def emailMatch (email : Str) (t : Str) : Bool :=
  decide ((Split t colon).length ≥ 3
    ∧ (ParseQuery ((Split t colon).getD 2 [])).2 = false
    ∧ (ParseQuery ((Split t colon).getD 2 [])).1.Get (lit "email") = email)

/-- The `auth.User` that `GetUserByEmail` builds from a trimmed line it matched. -/
def userOfRecord (t : Str) : User :=
  { Username := (Split t colon).getD 0 [],
    ID := (ParseQuery ((Split t colon).getD 2 [])).1.Get (lit "id"),
    FirstName := (ParseQuery ((Split t colon).getD 2 [])).1.Get (lit "first_name"),
    LastName := (ParseQuery ((Split t colon).getD 2 [])).1.Get (lit "last_name"),
    FullName := (ParseQuery ((Split t colon).getD 2 [])).1.Get (lit "full_name"),
    Email := (ParseQuery ((Split t colon).getD 2 [])).1.Get (lit "email"),
    Avatar := (ParseQuery ((Split t colon).getD 2 [])).1.Get (lit "avatar"),
    Provider := lit "htpasswd" }

/-- Results of the read operations can be compared. -/
instance instDecidableEqResult : DecidableEq (Except Error (Option User)) := fun a b =>
  match a, b with
  | .ok x, .ok y =>
    if h : x = y then isTrue (by rw [h]) else isFalse (fun e => h (Except.ok.inj e))
  | .error x, .error y =>
    if h : x = y then isTrue (by rw [h]) else isFalse (fun e => h (Except.error.inj e))
  | .ok _, .error _ => isFalse (fun e => by cases e)
  | .error _, .ok _ => isFalse (fun e => by cases e)

/-- The username field of a trimmed line, when the line has at least two fields. -/
def keyOf (t : Str) : Option Str :=
  if (Split t colon).length ≥ 2 then some ((Split t colon).getD 0 []) else none

/-- The username fields of the records of the file, in the order of the file. -/
def keys (file : Str) : List Str := (records file).filterMap keyOf

/-- No two records of the file have the same username field. -/
def uniqueKeys (file : Str) : Prop := (keys file).Nodup

/-- Every hash the hasher generates is free of `':'` and of white space, as the hashes of
`bcrypt` are. -/
def cleanHashes (H : Hasher) : Prop :=
  ∀ password cpw, H.GenerateFromPassword password = some cpw →
    colon ∉ cpw ∧ ∀ r ∈ spaceRunes, ¬ r <:+: cpw

/-- The CreateUser calls of `requests` (a candidate and a password each), run one after
the other on the file as the exclusive lock of `fsutil.UpdateLocked` serialises them: the
error of each call, in order, and the content of the file after the last one. -/
def createAll (H : Hasher) : Str → List (User × Str) → List (Option Error) × Str
  | file, [] => ([], file)
  | file, (user, password) :: rest =>
    ((CreateUser H file user password).1
        :: (createAll H (CreateUser H file user password).2 rest).1,
      (createAll H (CreateUser H file user password).2 rest).2)

/-- The pair that `CreateUser` sets for an attribute: none when the value is empty. -/
def optPair (key value : Str) : Values := if value ≠ [] then [(key, value)] else []

/-! ## Lines -/

theorem readLines_of_not_mem {t : Str} (h : nl ∉ t) : readLines t = [] := by
  induction t with
  | nil => rfl
  | cons b r ih =>
    simp only [List.mem_cons, not_or] at h
    have hb : b ≠ nl := fun e => h.1 e.symm
    simp [readLines, hb, ih h.2]

theorem readLines_line {l : Str} (rest : Str) (h : nl ∉ l) :
    readLines (l ++ nl :: rest) = (l ++ [nl]) :: readLines rest := by
  induction l with
  | nil => simp [readLines]
  | cons b r ih =>
    simp only [List.mem_cons, not_or] at h
    have hb : b ≠ nl := fun e => h.1 e.symm
    simp [readLines, hb, ih h.2]

theorem readLines_unlines {xs : List Str} (t : Str) (h : ∀ x ∈ xs, nl ∉ x) :
    readLines (unlines xs ++ t) = xs.map (· ++ [nl]) ++ readLines t := by
  induction xs with
  | nil => simp [unlines]
  | cons x xs ih =>
    have hx : nl ∉ x := h x (List.mem_cons_self _ _)
    have hxs : ∀ y ∈ xs, nl ∉ y := fun y hy => h y (List.mem_cons_of_mem _ hy)
    simp only [unlines, List.append_assoc, List.cons_append, List.map_cons]
    rw [readLines_line _ hx, ih hxs]

theorem unlines_append (xs ys : List Str) : unlines (xs ++ ys) = unlines xs ++ unlines ys := by
  induction xs with
  | nil => rfl
  | cons x xs ih => simp [unlines, ih]

/-- Every line read ends with the only `'\n'` it holds. -/
theorem readLines_shape {c : Str} {line : Str} (h : line ∈ readLines c) :
    ∃ x, line = x ++ [nl] ∧ nl ∉ x := by
  induction c generalizing line with
  | nil => simp [readLines] at h
  | cons b r ih =>
    by_cases hb : b = nl
    · simp only [readLines, hb, if_true, List.mem_cons] at h
      rcases h with h | h
      · exact ⟨[], by simp [h], by simp⟩
      · exact ih h
    · simp only [readLines, hb, if_false] at h
      cases hr : readLines r with
      | nil => simp [hr] at h
      | cons l more =>
        simp only [hr, List.mem_cons] at h
        rcases h with h | h
        · obtain ⟨x, hx, hnx⟩ := @ih l (by simp [hr])
          refine ⟨b :: x, by simp [h, hx], ?_⟩
          simp only [List.mem_cons, not_or]
          exact ⟨fun e => hb e.symm, hnx⟩
        · exact ih (by simp [hr, h])

/-! ## White space -/

theorem stripRune_eq_none {runes : List Str} {s : Str} :
    stripRune runes s = none ↔ NoLead runes s := by
  induction runes with
  | nil => simp [stripRune, NoLead]
  | cons r more ih =>
    by_cases h : r <+: s
    · have h2 : r.isPrefixOf s = true := List.isPrefixOf_iff_prefix.mpr h
      simp only [stripRune, h2, if_true, NoLead]
      constructor
      · intro e; cases e
      · intro e; exact absurd h (e r (List.mem_cons_self _ _))
    · have h2 : r.isPrefixOf s = false := by
        cases e : r.isPrefixOf s with
        | false => rfl
        | true => exact absurd (List.isPrefixOf_iff_prefix.mp e) h
      have h3 : stripRune (r :: more) s = stripRune more s := by simp [stripRune, h2]
      rw [h3, ih]
      simp only [NoLead, List.mem_cons]
      constructor
      · rintro e x (rfl | hx)
        · exact h
        · exact e x hx
      · intro e x hx
        exact e x (Or.inr hx)

theorem stripRune_eq_some {runes : List Str} {s t : Str} (h : stripRune runes s = some t) :
    ∃ r ∈ runes, s = r ++ t := by
  induction runes with
  | nil => simp [stripRune] at h
  | cons r more ih =>
    cases hp : r.isPrefixOf s with
    | true =>
      simp only [stripRune, hp, if_true, Option.some.injEq] at h
      refine ⟨r, List.mem_cons_self _ _, ?_⟩
      rw [← h]
      exact (List.prefix_iff_eq_append.mp (List.isPrefixOf_iff_prefix.mp hp)).symm
    | false =>
      have h3 : stripRune (r :: more) s = stripRune more s := by simp [stripRune, hp]
      rw [h3] at h
      obtain ⟨x, hx, e⟩ := ih h
      exact ⟨x, List.mem_cons_of_mem _ hx, e⟩

theorem trimRunes_of_noLead {runes : List Str} {s : Str} (n : Nat) (h : NoLead runes s) :
    trimRunes runes n s = s := by
  cases n with
  | zero => rfl
  | succ n => simp [trimRunes, stripRune_eq_none.mpr h]

theorem trimRunes_suffix (runes : List Str) (n : Nat) (s : Str) :
    trimRunes runes n s <:+ s := by
  induction n generalizing s with
  | zero => exact List.suffix_refl _
  | succ n ih =>
    cases h : stripRune runes s with
    | none => simp [trimRunes, h]
    | some t =>
      obtain ⟨r, _, e⟩ := stripRune_eq_some h
      simp only [trimRunes, h]
      exact (ih t).trans (e ▸ List.suffix_append r t)

theorem trimRunes_noLead {runes : List Str} (hr : ∀ r ∈ runes, r ≠ []) (n : Nat) (s : Str)
    (hn : s.length ≤ n) : NoLead runes (trimRunes runes n s) := by
  induction n generalizing s with
  | zero =>
    have hs : s = [] := List.length_eq_zero.mp (Nat.le_zero.mp hn)
    subst hs
    intro r hmem hp
    exact hr r hmem (List.prefix_nil.mp hp)
  | succ n ih =>
    cases h : stripRune runes s with
    | none => simpa [trimRunes, h] using stripRune_eq_none.mp h
    | some t =>
      obtain ⟨r, hmem, e⟩ := stripRune_eq_some h
      simp only [trimRunes, h]
      apply ih
      have hlen : 0 < r.length := List.length_pos.mpr (hr r hmem)
      have : s.length = r.length + t.length := by rw [e, List.length_append]
      omega

theorem spaceRunes_ne_nil : ∀ r ∈ spaceRunes, r ≠ [] := by decide

theorem spaceRunes_rev_ne_nil : ∀ r ∈ spaceRunes.map List.reverse, r ≠ [] := by decide

theorem spaceRunes_nl : ∀ r ∈ spaceRunes, nl ∈ r → r = [nl] := by decide

theorem spaceRunes_colon : ∀ r ∈ spaceRunes, colon ∉ r := by decide

theorem TrimLeft_suffix (s : Str) : TrimLeft s <:+ s := trimRunes_suffix _ _ _

theorem TrimLeft_noLead (s : Str) : NoLead spaceRunes (TrimLeft s) :=
  trimRunes_noLead spaceRunes_ne_nil _ _ (le_refl _)

theorem TrimLeft_of_noLead {s : Str} (h : NoLead spaceRunes s) : TrimLeft s = s :=
  trimRunes_of_noLead _ h

theorem TrimRight_initial (s : Str) : TrimRight s <+: s := by
  have h := trimRunes_suffix (spaceRunes.map List.reverse) s.length s.reverse
  have h2 := List.reverse_prefix.mpr h
  simpa [TrimRight] using h2

theorem noLead_rev_iff (s : Str) : NoLead (spaceRunes.map List.reverse) s.reverse ↔ NoTrail s := by
  constructor
  · intro h r hr hs
    exact h r.reverse (List.mem_map_of_mem _ hr) (List.reverse_prefix.mpr hs)
  · intro h r hr hp
    obtain ⟨x, hx, rfl⟩ := List.mem_map.mp hr
    exact h x hx (List.reverse_prefix.mp hp)

theorem TrimRight_noTrail (s : Str) : NoTrail (TrimRight s) := by
  have h := trimRunes_noLead spaceRunes_rev_ne_nil s.length s.reverse (by simp)
  rw [← noLead_rev_iff]
  simpa [TrimRight] using h

theorem TrimRight_of_noTrail {s : Str} (h : NoTrail s) : TrimRight s = s := by
  simp [TrimRight, trimRunes_of_noLead _ ((noLead_rev_iff s).mpr h)]

theorem TrimRight_nl (s : Str) : TrimRight (s ++ [nl]) = TrimRight s := by
  have h : stripRune (spaceRunes.map List.reverse) (nl :: s.reverse) = some s.reverse := by
    simp [stripRune, spaceRunes, nl, List.isPrefixOf]
  simp [TrimRight, trimRunes, h]

theorem trimmed_TrimSpace (s : Str) : Trimmed (TrimSpace s) := by
  refine ⟨?_, TrimRight_noTrail _⟩
  intro r hr hp
  exact TrimLeft_noLead s r hr (hp.trans (TrimRight_initial _))

theorem TrimSpace_of_trimmed {t : Str} (h : Trimmed t) : TrimSpace t = t := by
  simp [TrimSpace, TrimLeft_of_noLead h.1, TrimRight_of_noTrail h.2]

theorem noLead_append_nl {t : Str} (h : NoLead spaceRunes t) (ht : t ≠ []) :
    NoLead spaceRunes (t ++ [nl]) := by
  intro r hr hp
  rcases List.prefix_concat_iff.mp hp with e | hp2
  · have h1 : r = [nl] := spaceRunes_nl r hr (by rw [e]; simp)
    rw [h1] at e
    have h2 := congrArg List.length e
    simp only [List.length_append, List.length_singleton] at h2
    exact ht (List.length_eq_zero.mp (by omega))
  · exact h r hr hp2

/-- A trimmed line written with its `'\n'` is read back as the same trimmed line. -/
theorem TrimSpace_append_nl {t : Str} (h : Trimmed t) : TrimSpace (t ++ [nl]) = t := by
  by_cases ht : t = []
  · subst ht; decide
  · rw [TrimSpace, TrimLeft_of_noLead (noLead_append_nl h.1 ht), TrimRight_nl,
      TrimRight_of_noTrail h.2]

theorem nl_not_mem_TrimSpace {x : Str} (h : nl ∉ x) : nl ∉ TrimSpace (x ++ [nl]) := by
  rcases List.eq_nil_or_concat' (TrimLeft (x ++ [nl])) with e | ⟨L, b, e⟩
  · have : TrimSpace (x ++ [nl]) = [] := by rw [TrimSpace, e]; decide
    simp [this]
  · obtain ⟨a, ha⟩ := e ▸ TrimLeft_suffix (x ++ [nl])
    rw [← List.append_assoc] at ha
    obtain ⟨h1, h2⟩ := List.append_inj' ha rfl
    have hb : b = nl := by simpa using h2
    subst hb
    have hL : nl ∉ L := fun hm => h (h1 ▸ List.mem_append_right a hm)
    rw [TrimSpace, e, TrimRight_nl]
    exact fun hm => hL ((TrimRight_initial L).subset hm)

/-- What the loops of `auth.go` see of a line of the file: never a `'\n'`, and the same
text again when the line is written back and read once more. -/
theorem line_trimmed {c line : Str} (h : line ∈ readLines c) :
    nl ∉ TrimSpace line ∧ TrimSpace (TrimSpace line ++ [nl]) = TrimSpace line := by
  obtain ⟨x, rfl, hx⟩ := readLines_shape h
  exact ⟨nl_not_mem_TrimSpace hx, TrimSpace_append_nl (trimmed_TrimSpace _)⟩

/-! ## Fields -/

theorem Split_ne_nil (s : Str) (sep : Byte) : Split s sep ≠ [] := by
  induction s with
  | nil => simp [Split]
  | cons b r ih =>
    by_cases hb : b = sep
    · simp [Split, hb]
    · cases h : Split r sep with
      | nil => exact absurd h ih
      | cons f fs => simp [Split, hb, h]

theorem Split_of_not_mem {s : Str} {sep : Byte} (h : sep ∉ s) : Split s sep = [s] := by
  induction s with
  | nil => rfl
  | cons b r ih =>
    simp only [List.mem_cons, not_or] at h
    have hb : b ≠ sep := fun e => h.1 e.symm
    simp [Split, hb, ih h.2]

theorem Split_append {a : Str} {sep : Byte} (b : Str) (h : sep ∉ a) :
    Split (a ++ sep :: b) sep = a :: Split b sep := by
  induction a with
  | nil => simp [Split]
  | cons c r ih =>
    simp only [List.mem_cons, not_or] at h
    have hc : c ≠ sep := fun e => h.1 e.symm
    simp [Split, hc, ih h.2]

theorem Split_Join {parts : List Str} {sep : Byte} (hne : parts ≠ [])
    (h : ∀ p ∈ parts, sep ∉ p) : Split (Join parts sep) sep = parts := by
  induction parts with
  | nil => exact absurd rfl hne
  | cons p ps ih =>
    have hp : sep ∉ p := h p (List.mem_cons_self _ _)
    cases ps with
    | nil => simpa [Join] using Split_of_not_mem hp
    | cons q more =>
      have hq : ∀ x ∈ q :: more, sep ∉ x := fun x hx => h x (List.mem_cons_of_mem _ hx)
      rw [Join, Split_append _ hp, ih (by simp) hq]

theorem Join_Split (s : Str) (sep : Byte) : Join (Split s sep) sep = s := by
  induction s with
  | nil => rfl
  | cons b r ih =>
    by_cases hb : b = sep
    · subst hb
      cases h : Split r b with
      | nil => exact absurd h (Split_ne_nil _ _)
      | cons f fs =>
        rw [h] at ih
        simp only [Split, if_true, h, Join, List.nil_append, ih]
    · cases h : Split r sep with
      | nil => exact absurd h (Split_ne_nil _ _)
      | cons f fs =>
        rw [h] at ih
        cases fs with
        | nil => simp [Split, hb, h, Join] at ih ⊢; exact ih
        | cons g gs => simp [Split, hb, h, Join] at ih ⊢; exact ih

theorem Split_not_mem (s : Str) (sep : Byte) : ∀ p ∈ Split s sep, sep ∉ p := by
  induction s with
  | nil => simp [Split]
  | cons b r ih =>
    by_cases hb : b = sep
    · intro p hp
      simp only [Split, hb, if_true, List.mem_cons] at hp
      rcases hp with rfl | hp
      · simp
      · exact ih p hp
    · cases h : Split r sep with
      | nil => exact absurd h (Split_ne_nil _ _)
      | cons f fs =>
        intro p hp
        simp only [Split, hb, if_false, h, List.mem_cons] at hp
        rw [h] at ih
        rcases hp with rfl | hp
        · simp only [List.mem_cons, not_or]
          exact ⟨fun e => hb e.symm, ih f (List.mem_cons_self _ _)⟩
        · exact ih p (List.mem_cons_of_mem _ hp)

/-! ## What the loops compute -/

theorem deleteUserLoop_eq (username : Str) (lines : List Str) (wf : Str) :
    deleteUserLoop username lines wf
      = .ok (wf ++ unlines ((lines.map TrimSpace).filter fun t => !hasKey username t)) := by
  induction lines generalizing wf with
  | nil => simp [deleteUserLoop, unlines]
  | cons line rest ih =>
    by_cases h : hasKey username (TrimSpace line) = true
    · have h2 := h
      simp only [hasKey, decide_eq_true_eq] at h2
      simp only [deleteUserLoop, h2, and_self, if_true, ih, List.map_cons, List.filter_cons, h,
        Bool.not_true, Bool.false_eq_true, if_false]
    · have h2 := h
      simp only [hasKey, decide_eq_true_eq] at h2
      simp only [Bool.not_eq_true] at h
      simp only [deleteUserLoop, h2, if_false, ih, List.map_cons, List.filter_cons, h,
        Bool.not_false, if_true, unlines, List.append_assoc, List.cons_append, List.nil_append,
        List.singleton_append]

theorem createUserLoop_eq (username : Str) (lines : List Str) (wf : Str) :
    createUserLoop username lines wf
      = if (lines.map TrimSpace).any (hasKey username) then .error (.alreadyExists username)
        else .ok (wf ++ unlines (lines.map TrimSpace)) := by
  induction lines generalizing wf with
  | nil => simp [createUserLoop, unlines]
  | cons line rest ih =>
    by_cases h : hasKey username (TrimSpace line) = true
    · have h2 := h
      simp only [hasKey, decide_eq_true_eq] at h2
      simp only [createUserLoop, h2, and_self, if_true, List.map_cons, List.any_cons, h,
        Bool.true_or]
    · have h2 := h
      simp only [hasKey, decide_eq_true_eq] at h2
      simp only [createUserLoop, h2, if_false, ih, List.map_cons, List.any_cons, h,
        Bool.false_or, unlines, List.append_assoc, List.cons_append, List.nil_append,
        List.singleton_append]

theorem updatePasswordLoop_eq (username cpw : Str) (lines : List Str) (found : Bool) (wf : Str) :
    updatePasswordLoop username cpw lines found wf
      = if found || (lines.map TrimSpace).any (hasKey username)
        then .ok (wf ++ unlines ((lines.map TrimSpace).map (setHash username cpw)))
        else .error (.doesNotExist username) := by
  induction lines generalizing found wf with
  | nil => cases found <;> simp [updatePasswordLoop, unlines]
  | cons line rest ih =>
    by_cases h : hasKey username (TrimSpace line) = true
    · have h2 := h
      simp only [hasKey, decide_eq_true_eq] at h2
      simp only [updatePasswordLoop, h2, and_self, if_true, ih, List.map_cons, List.any_cons, h,
        Bool.true_or, Bool.or_true, unlines, List.append_assoc, List.cons_append,
        List.nil_append, List.singleton_append, setHash]
    · have h2 := h
      simp only [hasKey, decide_eq_true_eq] at h2
      simp only [updatePasswordLoop, h2, if_false, ih, List.map_cons, List.any_cons, h,
        Bool.false_or, unlines, List.append_assoc, List.cons_append, List.nil_append,
        List.singleton_append, setHash, Bool.false_eq_true]

theorem authenticateLoop_eq (H : Hasher) (username xusername password : Str)
    (lines : List Str) :
    authenticateLoop H username xusername password lines
      = verdictResult H username password ((lines.map TrimSpace).find? (hasKey xusername)) := by
  induction lines with
  | nil => simp [authenticateLoop, verdictResult]
  | cons line rest ih =>
    by_cases h : hasKey xusername (TrimSpace line) = true
    · have h2 := h
      simp only [hasKey, decide_eq_true_eq] at h2
      simp only [authenticateLoop, h2, and_self, if_true, List.map_cons, List.find?_cons, h,
        verdictResult]
    · have h2 := h
      simp only [hasKey, decide_eq_true_eq] at h2
      simp only [authenticateLoop, h2, if_false, ih, List.map_cons, List.find?_cons, h]

theorem records_good {file t : Str} (h : t ∈ records file) : nl ∉ t ∧ Trimmed t := by
  obtain ⟨line, hl, rfl⟩ := List.mem_map.mp h
  exact ⟨(line_trimmed hl).1, trimmed_TrimSpace _⟩

/-- Trimmed lines written one per line are the records of the text written; what follows
them contributes its own records. -/
theorem records_unlines {ts : List Str} (tail : Str) (h : ∀ t ∈ ts, nl ∉ t ∧ Trimmed t) :
    records (unlines ts ++ tail) = ts ++ records tail := by
  rw [records, readLines_unlines tail (fun t ht => (h t ht).1), List.map_append, List.map_map]
  congr 1
  calc ts.map (TrimSpace ∘ fun x => x ++ [nl]) = ts.map id :=
        List.map_congr_left fun t ht => TrimSpace_append_nl (h t ht).2
    _ = ts := List.map_id ts

theorem DeleteUser_eq (file username : Str) :
    DeleteUser file username
      = (none, unlines ((records file).filter fun t => !hasKey (QueryEscape username) t)) := by
  simp [DeleteUser, UpdateLocked, deleteUserLoop_eq, records]

theorem Authenticate_eq (H : Hasher) (file username password : Str) :
    Authenticate H file username password
      = verdictResult H username password (firstRecord file (QueryEscape username)) := by
  simp [Authenticate, ReadLocked, authenticateLoop_eq, firstRecord, records]

/-! ## Percent-encoding -/

theorem upperhex_eq :
    upperhex = [48, 49, 50, 51, 52, 53, 54, 55, 56, 57, 65, 66, 67, 68, 69, 70] := by decide

set_option maxRecDepth 100000 in
theorem hex_roundtrip : ∀ c : Byte,
    ishex (upperhex.getD (c.val / 16) 0) = true ∧ ishex (upperhex.getD (c.val % 16) 0) = true
      ∧ (Fin.ofNat (unhex (upperhex.getD (c.val / 16) 0) * 16
            + unhex (upperhex.getD (c.val % 16) 0)) : Byte) = c := by
  rw [upperhex_eq]; decide

set_option maxRecDepth 100000 in
theorem plain_byte : ∀ c : Byte, shouldEscape c = false → c ≠ 37 ∧ c ≠ 43 := by decide

set_option maxRecDepth 100000 in
theorem escapeByte_safe : ∀ c : Byte, (escapeByte c).all escSafe = true := by
  unfold escapeByte; rw [upperhex_eq]; decide

set_option maxRecDepth 100000 in
theorem escapeByte_ne_nil : ∀ c : Byte, escapeByte c ≠ [] := by
  unfold escapeByte; rw [upperhex_eq]; decide

theorem QueryUnescape_cons (c : Byte) (rest : Str) (h : c ≠ 37) :
    QueryUnescape (c :: rest) = if c = 43 then (QueryUnescape rest).map ((32 : Byte) :: ·)
      else (QueryUnescape rest).map (c :: ·) := by
  rcases rest with _ | ⟨h1, _ | ⟨h2, r⟩⟩ <;> simp only [QueryUnescape, h, if_false]

theorem QueryUnescape_percent (h1 h2 : Byte) (rest : Str) :
    QueryUnescape (37 :: h1 :: h2 :: rest) = if ishex h1 && ishex h2 then
          (QueryUnescape rest).map (Fin.ofNat (unhex h1 * 16 + unhex h2) :: ·)
        else none := by
  simp only [QueryUnescape, if_true]

theorem QueryUnescape_escapeByte (c : Byte) (rest : Str) :
    QueryUnescape (escapeByte c ++ rest) = (QueryUnescape rest).map (c :: ·) := by
  by_cases h32 : c = 32
  · subst h32
    have e : escapeByte 32 = [43] := by decide
    rw [e, List.singleton_append, QueryUnescape_cons _ _ (by decide), if_pos rfl]
  · cases hs : shouldEscape c with
    | true =>
      obtain ⟨h1, h2, h3⟩ := hex_roundtrip c
      have e : escapeByte c
          = [37, upperhex.getD (c.val / 16) 0, upperhex.getD (c.val % 16) 0] := by
        rw [escapeByte, if_neg h32, if_pos hs]
      rw [e]
      show QueryUnescape (37 :: _ :: _ :: rest) = _
      rw [QueryUnescape_percent, h1, h2, h3]
      rfl
    | false =>
      obtain ⟨h1, h2⟩ := plain_byte c hs
      have e : escapeByte c = [c] := by
        rw [escapeByte, if_neg h32, if_neg (by simp [hs])]
      rw [e, List.singleton_append, QueryUnescape_cons _ _ h1, if_neg h2]

/-- `url.QueryUnescape` undoes `url.QueryEscape`. -/
theorem QueryUnescape_QueryEscape (s : Str) : QueryUnescape (QueryEscape s) = some s := by
  induction s with
  | nil => rfl
  | cons c rest ih => simp [QueryEscape, QueryUnescape_escapeByte, ih]

theorem QueryEscape_injective {a b : Str} (h : QueryEscape a = QueryEscape b) : a = b := by
  have h2 := congrArg QueryUnescape h
  simpa [QueryUnescape_QueryEscape] using h2

theorem QueryEscape_safe (s : Str) : ∀ b ∈ QueryEscape s, escSafe b = true := by
  induction s with
  | nil => simp [QueryEscape]
  | cons c rest ih =>
    intro b hb
    simp only [QueryEscape, List.mem_append] at hb
    rcases hb with hb | hb
    · exact List.all_eq_true.mp (escapeByte_safe c) b hb
    · exact ih b hb

theorem QueryEscape_ne_nil {s : Str} (h : s ≠ []) : QueryEscape s ≠ [] := by
  cases s with
  | nil => exact absurd rfl h
  | cons c rest =>
    simp only [QueryEscape, ne_eq, List.append_eq_nil, not_and]
    exact fun e => absurd e (escapeByte_ne_nil c)

/-! ## DeleteUser -/

theorem records_unlines_nil {ts : List Str} (h : ∀ t ∈ ts, nl ∉ t ∧ Trimmed t) :
    records (unlines ts) = ts := by
  have e := records_unlines [] h
  simpa [records, readLines] using e

theorem kept_good (file : Str) (p : Str → Bool) :
    ∀ t ∈ (records file).filter p, nl ∉ t ∧ Trimmed t :=
  fun _ ht => records_good (List.mem_filter.mp ht).1

theorem find_filter_of_imp {α : Type} {p q : α → Bool} (h : ∀ x, p x = true → q x = true)
    (l : List α) : (l.filter q).find? p = l.find? p := by
  induction l with
  | nil => rfl
  | cons x xs ih =>
    cases hq : q x with
    | true => simp [List.filter_cons, hq, List.find?_cons, ih]
    | false =>
      have hp : p x = false := by
        cases hp : p x with
        | false => rfl
        | true => rw [h x hp] at hq; cases hq
      simp [List.filter_cons, hq, List.find?_cons, hp, ih]

theorem hasKey_unique {a b t : Str} (ha : hasKey a t = true) (hb : hasKey b t = true) : a = b := by
  simp only [hasKey, decide_eq_true_eq] at ha hb
  rw [← ha.2, ← hb.2]

/-- C6: DeleteUser(u) returns no error and leaves the file without any record whose
username field is the percent-encoded u, so that a following Authenticate(u, pw) returns
an absent User and no error, for every file content, username and password. -/
theorem DeleteUser_removes_user (H : Hasher) (file u pw : Str) :
    (DeleteUser file u).1 = none
    ∧ hasRecord (DeleteUser file u).2 (QueryEscape u) = false
    ∧ Authenticate H (DeleteUser file u).2 u pw = .ok none := by
  have hrec : records (DeleteUser file u).2
      = (records file).filter fun t => !hasKey (QueryEscape u) t := by
    rw [DeleteUser_eq]
    exact records_unlines_nil (kept_good file _)
  refine ⟨by rw [DeleteUser_eq], ?_, ?_⟩
  · rw [hasRecord, hrec]
    simp [List.any_eq_false, List.mem_filter]
  · have hnone : firstRecord (DeleteUser file u).2 (QueryEscape u) = none := by
      rw [firstRecord, hrec, List.find?_eq_none]
      intro t ht
      simpa using (List.mem_filter.mp ht).2
    rw [Authenticate_eq, hnone]
    rfl

/-- C7: for usernames u and v with v different from u, Authenticate(v, pw) returns the same
result (a User with all its attributes, absent, or an error) after DeleteUser(u) as before
it, for every file content and password. -/
theorem DeleteUser_keeps_others (H : Hasher) (file u v pw : Str) (hne : v ≠ u) :
    Authenticate H (DeleteUser file u).2 v pw = Authenticate H file v pw := by
  have hrec : records (DeleteUser file u).2
      = (records file).filter fun t => !hasKey (QueryEscape u) t := by
    rw [DeleteUser_eq]
    exact records_unlines_nil (kept_good file _)
  rw [Authenticate_eq, Authenticate_eq, firstRecord, firstRecord, hrec]
  congr 1
  apply find_filter_of_imp
  intro t ht
  cases hu : hasKey (QueryEscape u) t with
  | false => rfl
  | true => exact absurd (QueryEscape_injective (hasKey_unique ht hu)) hne

/-- C8: DeleteUser(u) applied twice in a row succeeds both times, and the file content
after the second call is byte for byte the content after the first call. -/
theorem DeleteUser_idempotent (file u : Str) :
    (DeleteUser file u).1 = none
    ∧ (DeleteUser (DeleteUser file u).2 u).1 = none
    ∧ (DeleteUser (DeleteUser file u).2 u).2 = (DeleteUser file u).2 := by
  have hrec : records (DeleteUser file u).2
      = (records file).filter fun t => !hasKey (QueryEscape u) t := by
    rw [DeleteUser_eq]
    exact records_unlines_nil (kept_good file _)
  refine ⟨by rw [DeleteUser_eq], by rw [DeleteUser_eq], ?_⟩
  rw [DeleteUser_eq (DeleteUser file u).2, hrec, List.filter_filter]
  rw [DeleteUser_eq]
  simp

/-! ## Authenticate -/

/-- C2: Authenticate returns a User if and only if the file has a first record whose
username field is the percent-encoded input username and the hasher reports a match of
the password against that record's hash field; when there is no such record, or the
hasher reports a mismatch, it returns an absent User and no error.  A record is a line of
the file as the loop reads it: ended by '\n', trimmed, and split on ':' into at least two
fields. -/
theorem Authenticate_first_record (H : Hasher) (file username password : Str) :
    ((∃ user, Authenticate H file username password = .ok (some user))
      ↔ ∃ t, firstRecord file (QueryEscape username) = some t
          ∧ H.CompareHashAndPassword ((Split t colon).getD 1 []) password = .matched)
    ∧ (firstRecord file (QueryEscape username) = none
        → Authenticate H file username password = .ok none)
    ∧ (∀ t, firstRecord file (QueryEscape username) = some t
        → H.CompareHashAndPassword ((Split t colon).getD 1 []) password = .mismatch
        → Authenticate H file username password = .ok none) := by
  rw [Authenticate_eq]
  refine ⟨?_, ?_, ?_⟩
  · cases hf : firstRecord file (QueryEscape username) with
    | none => simp [verdictResult]
    | some t =>
      cases hv : H.CompareHashAndPassword ((Split t colon).getD 1 []) password <;>
        simp only [verdictResult, hv, Option.some.injEq, exists_eq_left', reduceCtorEq,
          Except.ok.injEq, exists_false, exists_eq', exists_const]
  · intro hf
    rw [hf]
    rfl
  · intro t hf hv
    rw [hf]
    simp only [verdictResult, hv]

/-! ## CreateUser and UpdatePassword: errors -/

theorem CreateUser_eq (H : Hasher) (file : Str) (user : User) (password name cpw : Str)
    (hname : canonicalUsername user = some name)
    (hgen : H.GenerateFromPassword password = some cpw) :
    CreateUser H file user password
      = if hasRecord file (QueryEscape name) then
          (some (.alreadyExists (QueryEscape name)), file)
        else (none, unlines (records file)
                ++ (newRecord (QueryEscape name) cpw user ++ [nl])) := by
  simp only [CreateUser, hname, hgen, UpdateLocked, createUserLoop_eq, hasRecord, records,
    newRecord]
  cases h : ((readLines file).map TrimSpace).any (hasKey (QueryEscape name)) <;> simp

theorem UpdatePassword_eq (H : Hasher) (file username password cpw : Str)
    (hgen : H.GenerateFromPassword password = some cpw) :
    UpdatePassword H file username password
      = if hasRecord file (QueryEscape username) then
          (none, unlines ((records file).map (setHash (QueryEscape username) cpw)))
        else (some (.doesNotExist (QueryEscape username)), file) := by
  simp only [UpdatePassword, hgen, UpdateLocked, updatePasswordLoop_eq, hasRecord, records]
  cases h : ((readLines file).map TrimSpace).any (hasKey (QueryEscape username)) <;> simp

/-- C3: for a candidate with a non-empty identifier whose password the hasher hashes,
CreateUser fails with "user ... already exists" if and only if the file already holds a
record whose username field is the percent-encoded canonical username of the candidate,
and whenever CreateUser fails the content of the file after the call is its content
before the call. -/
theorem CreateUser_duplicate (H : Hasher) (file : Str) (user : User) (password name cpw : Str)
    (hname : canonicalUsername user = some name)
    (hgen : H.GenerateFromPassword password = some cpw) :
    ((CreateUser H file user password).1 = some (.alreadyExists (QueryEscape name))
      ↔ hasRecord file (QueryEscape name) = true)
    ∧ ((∃ username, (CreateUser H file user password).1 = some (.alreadyExists username))
      ↔ hasRecord file (QueryEscape name) = true)
    ∧ ((CreateUser H file user password).1 ≠ none
      → (CreateUser H file user password).2 = file) := by
  rw [CreateUser_eq H file user password name cpw hname hgen]
  cases h : hasRecord file (QueryEscape name) <;> simp

/-- C5: when the hasher hashes the new password, UpdatePassword fails with
"user ... does not exist" if and only if no record of the file has a username field equal
to the percent-encoded username, and then the content of the file after the call is its
content before the call. -/
theorem UpdatePassword_missing (H : Hasher) (file username password cpw : Str)
    (hgen : H.GenerateFromPassword password = some cpw) :
    ((UpdatePassword H file username password).1 = some (.doesNotExist (QueryEscape username))
      ↔ hasRecord file (QueryEscape username) = false)
    ∧ ((∃ name, (UpdatePassword H file username password).1 = some (.doesNotExist name))
      ↔ hasRecord file (QueryEscape username) = false)
    ∧ (hasRecord file (QueryEscape username) = false
      → (UpdatePassword H file username password).2 = file) := by
  rw [UpdatePassword_eq H file username password cpw hgen]
  cases h : hasRecord file (QueryEscape username) <;> simp

/-! ## `url.Values` -/

theorem strLess_irrefl (a : Str) : strLess a a = false := by
  induction a with
  | nil => rfl
  | cons b bs ih => simp [strLess, ih]

theorem Get_insertByKey (p : Str × Str) (l : Values) (key : Str) :
    Values.Get (insertByKey p l) key = if p.1 = key then p.2 else Values.Get l key := by
  induction l with
  | nil => simp [insertByKey, Values.Get]
  | cons q rest ih =>
    cases hq : strLess q.1 p.1 with
    | true =>
      have hne : q.1 ≠ p.1 := fun e => by rw [e, strLess_irrefl] at hq; cases hq
      simp only [insertByKey, hq, if_true, Values.Get, ih]
      by_cases hk : p.1 = key
      · have : ¬ q.1 = key := fun e => hne (e.trans hk.symm)
        simp [hk, this]
      · simp [hk]
    | false => simp [insertByKey, hq, Values.Get]

theorem Get_sortByKey (l : Values) (key : Str) :
    Values.Get (sortByKey l) key = Values.Get l key := by
  induction l with
  | nil => rfl
  | cons p rest ih => simp [sortByKey, Get_insertByKey, ih, Values.Get]

theorem Get_Set (m : Values) (k v key : Str) :
    Values.Get (m.Set k v) key = if k = key then v else Values.Get m key := by
  induction m with
  | nil => simp [Values.Set, Values.Get]
  | cons q rest ih =>
    simp only [Values.Set] at ih
    by_cases hq : q.1 = k
    · have : Values.Set (q :: rest) k v = Values.Set rest k v := by
        simp [Values.Set, List.filter_cons, hq]
      rw [this, Values.Set, ih]
      by_cases hk : k = key
      · simp [hk]
      · have : ¬ q.1 = key := fun e => hk (hq.symm.trans e)
        simp [hk, Values.Get, this]
    · have : Values.Set (q :: rest) k v = q :: Values.Set rest k v := by
        simp [Values.Set, List.filter_cons, hq]
      rw [this, Values.Set]
      simp only [Values.Get, ih]
      by_cases hk : k = key
      · have : ¬ q.1 = key := fun e => hq (e.trans hk.symm)
        simp [hk, this]
      · simp [hk]

theorem Join_cons_append (a b : Str) (more : List Str) (sep : Byte) :
    Join ((a ++ sep :: b) :: more) sep = Join (a :: b :: more) sep := by
  cases more with
  | nil => simp [Join]
  | cons m ms => simp [Join]

theorem encodeInto_eq (ps : Values) (buf : Str) (h : buf ≠ []) :
    encodeInto ps buf = Join (buf :: ps.map pairText) 38 := by
  induction ps generalizing buf with
  | nil => simp [encodeInto, Join]
  | cons p rest ih =>
    have hlen : buf.length > 0 := List.length_pos.mpr h
    simp only [encodeInto, hlen, if_true, List.map_cons]
    rw [ih _ (by simp), ← Join_cons_append buf (pairText p)]
    simp [pairText]

theorem Encode_eq (vals : Values) :
    vals.Encode = Join ((sortByKey vals).map pairText) 38 := by
  rw [Values.Encode]
  cases sortByKey vals with
  | nil => simp [encodeInto, Join]
  | cons p rest =>
    simp only [encodeInto, List.length_nil, gt_iff_lt, lt_self_iff_false, if_false,
      List.nil_append, List.map_cons]
    rw [encodeInto_eq _ _ (by simp)]
    simp [pairText]

set_option maxRecDepth 100000 in
theorem escSafe_bytes : ∀ b : Byte, escSafe b = true →
    b ≠ nl ∧ b ≠ colon ∧ b ≠ 61 ∧ b ≠ 38 ∧ b ≠ 59 ∧ leadByte b = false ∧ trailByte b = false := by
  decide

set_option maxRecDepth 100000 in
theorem encSafe_bytes : ∀ b : Byte, encSafe b = true →
    b ≠ nl ∧ b ≠ colon ∧ b ≠ 59 ∧ leadByte b = false ∧ trailByte b = false := by
  decide

theorem QueryEscape_not_mem (s : Str) {b : Byte} (h : escSafe b = false) : b ∉ QueryEscape s :=
  fun hm => by rw [QueryEscape_safe s b hm] at h; cases h

theorem Cut_append {a : Str} {sep : Byte} (b : Str) (h : sep ∉ a) :
    Cut (a ++ sep :: b) sep = (a, b) := by
  induction a with
  | nil => simp [Cut]
  | cons c r ih =>
    simp only [List.mem_cons, not_or] at h
    have hc : c ≠ sep := fun e => h.1 e.symm
    simp [Cut, hc, ih h.2]

theorem pairText_safe (p : Str × Str) : ∀ b ∈ pairText p, encSafe b = true := by
  intro b hb
  simp only [pairText, List.mem_append, List.mem_cons] at hb
  rcases hb with hb | rfl | hb
  · simp [encSafe, QueryEscape_safe _ b hb]
  · decide
  · simp [encSafe, QueryEscape_safe _ b hb]

theorem pairText_amp (p : Str × Str) : (38 : Byte) ∉ pairText p := by
  simp only [pairText, List.mem_append, List.mem_cons, not_or]
  exact ⟨QueryEscape_not_mem _ (by decide), by decide, QueryEscape_not_mem _ (by decide)⟩

theorem parseQuery_pairs (ps : Values) (m : Values) (err : Bool) :
    parseQuery (ps.map pairText) m err = (m ++ ps, err) := by
  induction ps generalizing m with
  | nil => simp [parseQuery]
  | cons p rest ih =>
    have h59 : (59 : Byte) ∉ pairText p := fun hm =>
      (encSafe_bytes 59 (pairText_safe p 59 hm)).2.2.1 rfl
    have hne : pairText p ≠ [] := by simp [pairText]
    have hcut : Cut (pairText p) 61 = (QueryEscape p.1, QueryEscape p.2) :=
      Cut_append _ (QueryEscape_not_mem _ (by decide))
    simp only [List.map_cons, parseQuery, h59, if_false, hne, hcut, QueryUnescape_QueryEscape,
      ih, Values.Add, List.append_assoc, List.singleton_append]

/-- `url.ParseQuery` reads back what `Values.Encode` wrote: the same pairs, sorted by
key, and no error. -/
theorem ParseQuery_Encode (vals : Values) :
    ParseQuery vals.Encode = (sortByKey vals, false) := by
  rw [ParseQuery, Encode_eq]
  cases h : sortByKey vals with
  | nil => simp [Join, Split, parseQuery]
  | cons p rest =>
    rw [Split_Join (by simp), parseQuery_pairs]
    · simp
    · intro x hx
      obtain ⟨q, _, rfl⟩ := List.mem_map.mp hx
      exact pairText_amp q

theorem Get_ParseQuery_Encode (vals : Values) (key : Str) :
    (ParseQuery vals.Encode).1.Get key = vals.Get key := by
  rw [ParseQuery_Encode, Get_sortByKey]

/-! ## The record CreateUser writes -/

theorem Get_condSet (c : Prop) [Decidable c] (m : Values) (k v key : Str) :
    Values.Get (if c then m.Set k v else m) key
      = if c ∧ k = key then v else Values.Get m key := by
  by_cases hc : c <;> simp [hc, Get_Set]

theorem attribute_keys :
    lit "id" = [105, 100]
    ∧ lit "first_name" = [102, 105, 114, 115, 116, 95, 110, 97, 109, 101]
    ∧ lit "last_name" = [108, 97, 115, 116, 95, 110, 97, 109, 101]
    ∧ lit "full_name" = [102, 117, 108, 108, 95, 110, 97, 109, 101]
    ∧ lit "email" = [101, 109, 97, 105, 108]
    ∧ lit "avatar" = [97, 118, 97, 116, 97, 114] := by decide

/-- Every attribute key reads back from the values of a user as the field of the user:
a field that is not set reads back as the empty string. -/
theorem userValues_Get (user : User) :
    (userValues user).Get (lit "id") = user.ID
    ∧ (userValues user).Get (lit "first_name") = user.FirstName
    ∧ (userValues user).Get (lit "last_name") = user.LastName
    ∧ (userValues user).Get (lit "full_name") = user.FullName
    ∧ (userValues user).Get (lit "email") = user.Email
    ∧ (userValues user).Get (lit "avatar") = user.Avatar := by
  obtain ⟨k1, k2, k3, k4, k5, k6⟩ := attribute_keys
  simp only [userValues, Get_condSet, k1, k2, k3, k4, k5, k6]
  refine ⟨?_, ?_, ?_, ?_, ?_, ?_⟩
  · by_cases h : user.ID = [] <;> simp [Values.Get, h]
  · by_cases h : user.FirstName = [] <;> simp [Values.Get, h]
  · by_cases h : user.LastName = [] <;> simp [Values.Get, h]
  · by_cases h : user.FullName = [] <;> simp [Values.Get, h]
  · by_cases h : user.Email = [] <;> simp [Values.Get, h]
  · by_cases h : user.Avatar = [] <;> simp [Values.Get, h]

theorem noLead_of_head {b : Byte} (rest : Str) (hb : leadByte b = false) :
    NoLead spaceRunes (b :: rest) := by
  intro r hr hp
  cases r with
  | nil => exact spaceRunes_ne_nil [] hr rfl
  | cons c r2 =>
    obtain ⟨t, ht⟩ := hp
    have hc : c = b := by
      simp only [List.cons_append, List.cons.injEq] at ht
      exact ht.1
    subst hc
    have : leadByte c = true := List.any_eq_true.mpr ⟨c :: r2, hr, by simp⟩
    rw [this] at hb
    cases hb

theorem noTrail_of_last {b : Byte} (x : Str) (hb : trailByte b = false) :
    NoTrail (x ++ [b]) := by
  intro r hr hs
  rcases List.eq_nil_or_concat' r with e | ⟨r2, c, e⟩
  · exact spaceRunes_ne_nil r hr e
  · subst e
    obtain ⟨t, ht⟩ := hs
    rw [← List.append_assoc] at ht
    have hc : c = b := by simpa using (List.append_inj' ht rfl).2
    subst hc
    have : trailByte c = true := List.any_eq_true.mpr ⟨r2 ++ [c], hr, by simp⟩
    rw [this] at hb
    cases hb

theorem mem_Join {parts : List Str} {sep b : Byte} (h : b ∈ Join parts sep) :
    b = sep ∨ ∃ p ∈ parts, b ∈ p := by
  induction parts with
  | nil => simp [Join] at h
  | cons p ps ih =>
    cases ps with
    | nil => exact Or.inr ⟨p, by simp, by simpa [Join] using h⟩
    | cons q more =>
      simp only [Join, List.mem_append, List.mem_cons] at h
      rcases h with h | h | h
      · exact Or.inr ⟨p, by simp, h⟩
      · exact Or.inl h
      · rcases ih h with e | ⟨x, hx, hb⟩
        · exact Or.inl e
        · exact Or.inr ⟨x, List.mem_cons_of_mem _ hx, hb⟩

theorem Encode_safe (vals : Values) : ∀ b ∈ vals.Encode, encSafe b = true := by
  intro b hb
  rw [Encode_eq] at hb
  rcases mem_Join hb with rfl | ⟨p, hp, hbp⟩
  · decide
  · obtain ⟨q, _, rfl⟩ := List.mem_map.mp hp
    exact pairText_safe q b hbp

theorem newRecord_eq (username cpw : Str) (user : User) :
    newRecord username cpw user
      = username ++ colon :: (cpw ++ colon :: (userValues user).Encode) := by
  simp [newRecord, Join]

/-- The record written for a user holds no `'\n'` and has no white space at either end,
so it is read back as one line, as it was written. -/
theorem newRecord_good {name cpw : Str} (user : User) (hname : name ≠ []) (hnl : nl ∉ cpw) :
    nl ∉ newRecord (QueryEscape name) cpw user
      ∧ Trimmed (newRecord (QueryEscape name) cpw user) := by
  have henc := Encode_safe (userValues user)
  have hesc := QueryEscape_safe name
  refine ⟨?_, ?_, ?_⟩
  · rw [newRecord_eq]
    simp only [List.mem_append, List.mem_cons, not_or]
    refine ⟨fun h => (escSafe_bytes nl (hesc nl h)).1 rfl, by decide, hnl, by decide, ?_⟩
    exact fun h => (encSafe_bytes nl (henc nl h)).1 rfl
  · cases he : QueryEscape name with
    | nil => exact absurd he (QueryEscape_ne_nil hname)
    | cons b rest =>
      rw [newRecord_eq]
      exact noLead_of_head _ (escSafe_bytes b (hesc b (by simp [he]))).2.2.2.2.2.1
  · rcases List.eq_nil_or_concat' (userValues user).Encode with e | ⟨x, b, e⟩
    · rw [newRecord_eq, e]
      have : QueryEscape name ++ colon :: (cpw ++ [colon])
          = (QueryEscape name ++ colon :: cpw) ++ [colon] := by simp
      rw [this]
      exact noTrail_of_last _ (by decide)
    · rw [newRecord_eq, e]
      have : QueryEscape name ++ colon :: (cpw ++ colon :: (x ++ [b]))
          = (QueryEscape name ++ colon :: (cpw ++ colon :: x)) ++ [b] := by simp
      rw [this]
      exact noTrail_of_last _ (encSafe_bytes b (henc b (by simp [e]))).2.2.2.2

theorem Split_newRecord {name cpw : Str} (user : User) (hcolon : colon ∉ cpw) :
    Split (newRecord (QueryEscape name) cpw user) colon
      = [QueryEscape name, cpw, (userValues user).Encode] := by
  rw [newRecord]
  apply Split_Join (by simp)
  intro p hp
  simp only [List.mem_cons, List.mem_singleton, List.not_mem_nil, or_false] at hp
  rcases hp with rfl | rfl | rfl
  · exact QueryEscape_not_mem _ (by decide)
  · exact hcolon
  · exact fun h => (encSafe_bytes colon (Encode_safe _ colon h)).2.1 rfl

theorem hasKey_newRecord (name cpw : Str) (user : User) :
    hasKey (QueryEscape name) (newRecord (QueryEscape name) cpw user) = true := by
  have hs : Split (newRecord (QueryEscape name) cpw user) colon
      = QueryEscape name :: Split (cpw ++ colon :: (userValues user).Encode) colon := by
    rw [newRecord_eq]
    exact Split_append _ (QueryEscape_not_mem _ (by decide))
  have hlen := List.length_pos.mpr (Split_ne_nil (cpw ++ colon :: (userValues user).Encode) colon)
  simp only [hasKey, hs, List.length_cons, List.getD_cons_zero, decide_eq_true_eq]
  exact ⟨by omega, trivial⟩

/-- The records of the file after a successful CreateUser: those of the file before, then
the new one. -/
theorem records_created {name cpw : Str} (file : Str) (user : User) (hname : name ≠ [])
    (hnl : nl ∉ cpw) :
    records (unlines (records file) ++ (newRecord (QueryEscape name) cpw user ++ [nl]))
      = records file ++ [newRecord (QueryEscape name) cpw user] := by
  rw [records_unlines _ (fun t ht => records_good ht)]
  congr 1
  have h := @records_unlines_nil [newRecord (QueryEscape name) cpw user]
    (fun t ht => by rw [List.mem_singleton.mp ht]; exact newRecord_good user hname hnl)
  simpa [unlines] using h

theorem canonicalUsername_ne_nil {user : User} {name : Str}
    (h : canonicalUsername user = some name) : name ≠ [] := by
  unfold canonicalUsername at h
  split_ifs at h with h1 h2 h3
  · cases h; exact h1
  · cases h; exact h2
  · cases h; exact h3

theorem CreateUser_ok {H : Hasher} {file : Str} {user : User} {pw name cpw : Str}
    (hname : canonicalUsername user = some name)
    (hgen : H.GenerateFromPassword pw = some cpw)
    (hfree : hasRecord file (QueryEscape name) = false) :
    CreateUser H file user pw
      = (none, unlines (records file) ++ (newRecord (QueryEscape name) cpw user ++ [nl])) := by
  rw [CreateUser_eq H file user pw name cpw hname hgen, hfree]
  simp

theorem authenticatedUser_newRecord (name cpw : Str) (user : User) :
    authenticatedUser name [QueryEscape name, cpw, (userValues user).Encode]
      = { Username := name, ID := user.ID, FirstName := user.FirstName,
          LastName := user.LastName, FullName := user.FullName, Email := user.Email,
          Avatar := user.Avatar, Provider := lit "htpasswd" } := by
  obtain ⟨h1, h2, h3, h4, h5, h6⟩ := userValues_Get user
  have hp := ParseQuery_Encode (userValues user)
  simp only [authenticatedUser, List.length_cons, List.length_nil, List.getD_cons_succ,
    List.getD_cons_zero, hp, Get_sortByKey, h1, h2, h3, h4, h5, h6]
  simp

/-- Authenticate finds the record that CreateUser has just written and returns the
candidate's fields from it. -/
theorem Authenticate_created (H : Hasher) (file : Str) (user : User) (pw name cpw : Str)
    (hne : name ≠ [])
    (hfree : hasRecord file (QueryEscape name) = false)
    (hver : H.CompareHashAndPassword cpw pw = .matched)
    (hcolon : colon ∉ cpw) (hnl : nl ∉ cpw) :
    Authenticate H
        (unlines (records file) ++ (newRecord (QueryEscape name) cpw user ++ [nl])) name pw
      = .ok (some { Username := name, ID := user.ID, FirstName := user.FirstName,
                    LastName := user.LastName, FullName := user.FullName,
                    Email := user.Email, Avatar := user.Avatar,
                    Provider := lit "htpasswd" }) := by
  have hfirst : firstRecord (unlines (records file)
      ++ (newRecord (QueryEscape name) cpw user ++ [nl])) (QueryEscape name)
      = some (newRecord (QueryEscape name) cpw user) := by
    rw [firstRecord, records_created file user hne hnl, List.find?_append]
    have hnone : (records file).find? (hasKey (QueryEscape name)) = none := by
      rw [List.find?_eq_none]
      intro t ht
      rw [hasRecord, List.any_eq_false] at hfree
      exact hfree t ht
    rw [hnone]
    simp [List.find?_cons, hasKey_newRecord]
  rw [Authenticate_eq, hfirst]
  simp only [verdictResult, Split_newRecord user hcolon, List.getD_cons_succ,
    List.getD_cons_zero, hver, authenticatedUser_newRecord]

/-- C1: on a file that holds no record whose username field is the percent-encoded
canonical username of the candidate, for a candidate with a non-empty Username, Email or
ID and a password that the hasher hashes to a text free of ':' and '\n' which it verifies
as a match, CreateUser succeeds and a following Authenticate with the canonical username
and the password returns the User whose Username is the canonical username, whose ID,
FirstName, LastName, FullName, Email and Avatar are those of the candidate (unset ones
empty) and whose Provider is "htpasswd". -/
theorem CreateUser_then_Authenticate (H : Hasher) (file : Str) (user : User)
    (pw name cpw : Str)
    (hname : canonicalUsername user = some name)
    (hfree : hasRecord file (QueryEscape name) = false)
    (hgen : H.GenerateFromPassword pw = some cpw)
    (hver : H.CompareHashAndPassword cpw pw = .matched)
    (hcolon : colon ∉ cpw) (hnl : nl ∉ cpw) :
    (CreateUser H file user pw).1 = none
    ∧ Authenticate H (CreateUser H file user pw).2 name pw
        = .ok (some { Username := name, ID := user.ID, FirstName := user.FirstName,
                      LastName := user.LastName, FullName := user.FullName,
                      Email := user.Email, Avatar := user.Avatar,
                      Provider := lit "htpasswd" }) := by
  have hne := canonicalUsername_ne_nil hname
  rw [CreateUser_ok hname hgen hfree]
  exact ⟨rfl, Authenticate_created H file user pw name cpw hne hfree hver hcolon hnl⟩

theorem CreateUser_then_Authenticate_witness :
    Authenticate demoHasher
        (CreateUser demoHasher (lit "paul:x:\n")
          { Username := lit "jlennon", Email := lit "john@beatles.com" } (lit "yellow")).2
        (lit "jlennon") (lit "yellow")
      = .ok (some { Username := lit "jlennon", Email := lit "john@beatles.com",
                    Provider := lit "htpasswd" }) :=
  (CreateUser_then_Authenticate demoHasher (lit "paul:x:\n")
    { Username := lit "jlennon", Email := lit "john@beatles.com" } (lit "yellow")
    (lit "jlennon") (lit "yellow") (by decide) (by decide) (by decide) (by decide)
    (by decide) (by decide)).2

theorem CreateUser_noUsername_iff (H : Hasher) (file : Str) (user : User) (pw : Str) :
    (CreateUser H file user pw).1 = some .noUsername ↔ canonicalUsername user = none := by
  cases hc : canonicalUsername user with
  | none => simp [CreateUser, hc]
  | some name =>
    cases hg : H.GenerateFromPassword pw with
    | none => simp [CreateUser, hc, hg]
    | some cpw =>
      rw [CreateUser_eq H file user pw name cpw hc hg]
      cases hasRecord file (QueryEscape name) <;> simp

theorem canonicalUsername_eq_none (user : User) :
    canonicalUsername user = none ↔ user.Username = [] ∧ user.Email = [] ∧ user.ID = [] := by
  unfold canonicalUsername
  split_ifs with h1 h2 h3 <;> simp_all

/-- C9: CreateUser fails with "no username provided" if and only if Username, Email and ID
are all empty, and then the file is not modified; when CreateUser succeeds (the hash being
free of '\n'), the file has gained one record, the last one, whose username field is the
percent-encoding of the first non-empty of Username, Email, ID in that order, so that a
later CreateUser whose first non-empty identifier is that same string fails with
"user ... already exists". -/
theorem CreateUser_canonical_username (H : Hasher) (file : Str) (user : User) (pw : Str) :
    ((CreateUser H file user pw).1 = some .noUsername
      ↔ user.Username = [] ∧ user.Email = [] ∧ user.ID = [])
    ∧ ((CreateUser H file user pw).1 = some .noUsername
      → (CreateUser H file user pw).2 = file)
    ∧ (∀ cpw, H.GenerateFromPassword pw = some cpw → nl ∉ cpw
      → (CreateUser H file user pw).1 = none
      → ∃ name t,
          name = (if user.Username ≠ [] then user.Username
                  else if user.Email ≠ [] then user.Email else user.ID)
          ∧ records (CreateUser H file user pw).2 = records file ++ [t]
          ∧ 2 ≤ (Split t colon).length
          ∧ (Split t colon).getD 0 [] = QueryEscape name
          ∧ ∀ (later : User) (pw2 : Str),
              (later.Username = name ∨ (later.Username = [] ∧ later.Email = name)
                ∨ (later.Username = [] ∧ later.Email = [] ∧ later.ID = name))
              → H.GenerateFromPassword pw2 ≠ none
              → (CreateUser H (CreateUser H file user pw).2 later pw2).1
                  = some (.alreadyExists (QueryEscape name))) := by
  refine ⟨?_, ?_, ?_⟩
  · rw [CreateUser_noUsername_iff, canonicalUsername_eq_none]
  · intro h
    have hc := (CreateUser_noUsername_iff H file user pw).mp h
    simp [CreateUser, hc]
  · intro cpw hgen hnl hok
    cases hc : canonicalUsername user with
    | none => simp [CreateUser, hc] at hok
    | some name =>
      have hne := canonicalUsername_ne_nil hc
      have hfree : hasRecord file (QueryEscape name) = false := by
        rw [CreateUser_eq H file user pw name cpw hc hgen] at hok
        cases h : hasRecord file (QueryEscape name) with
        | false => rfl
        | true => simp [h] at hok
      have hkey := hasKey_newRecord name cpw user
      have hkey2 := hkey
      simp only [hasKey, decide_eq_true_eq] at hkey2
      refine ⟨name, newRecord (QueryEscape name) cpw user, ?_, ?_, hkey2.1, hkey2.2, ?_⟩
      · unfold canonicalUsername at hc
        split_ifs at hc with h1 h2 h3
        · rw [if_pos h1]; exact (Option.some.inj hc).symm
        · rw [if_neg h1, if_pos h2]; exact (Option.some.inj hc).symm
        · rw [if_neg h1, if_neg h2]; exact (Option.some.inj hc).symm
      · rw [CreateUser_ok hc hgen hfree]
        exact records_created file user hne hnl
      · intro later pw2 hlater hgen2
        have hcl : canonicalUsername later = some name := by
          unfold canonicalUsername
          rcases hlater with h | ⟨h1, h2⟩ | ⟨h1, h2, h3⟩
          · rw [if_pos (by rw [h]; exact hne), h]
          · rw [if_neg (by simp [h1]), if_pos (by rw [h2]; exact hne), h2]
          · rw [if_neg (by simp [h1]), if_neg (by simp [h2]),
              if_pos (by rw [h3]; exact hne), h3]
        obtain ⟨cpw2, hg2⟩ := Option.ne_none_iff_exists'.mp hgen2
        rw [CreateUser_eq H _ later pw2 name cpw2 hcl hg2]
        have hrec : hasRecord (CreateUser H file user pw).2 (QueryEscape name) = true := by
          rw [CreateUser_ok hc hgen hfree, hasRecord, records_created file user hne hnl]
          simp [hkey]
        rw [hrec]
        simp

theorem CreateUser_canonical_username_witness :
    (CreateUser demoHasher [] { FullName := lit "john lennon" } (lit "p")).1
        = some .noUsername
    ∧ (CreateUser demoHasher
        (CreateUser demoHasher [] { Username := lit "john@beatles.com" } (lit "p")).2
        { Email := lit "john@beatles.com" } (lit "p")).1
      = some (.alreadyExists (lit "john%40beatles.com"))
    ∧ (CreateUser demoHasher
        (CreateUser demoHasher [] { Username := lit "john@beatles.com" } (lit "p")).2
        { ID := lit "john@beatles.com" } (lit "p")).1
      = some (.alreadyExists (lit "john%40beatles.com")) := by
  have h1 := (CreateUser_canonical_username demoHasher []
    { FullName := lit "john lennon" } (lit "p")).1
  obtain ⟨name, t, hn, _, _, _, hlater⟩ := (CreateUser_canonical_username demoHasher []
    { Username := lit "john@beatles.com" } (lit "p")).2.2 (lit "p")
    (by decide) (by decide) (by decide)
  have hname : name = lit "john@beatles.com" := by rw [hn]; decide
  have hesc : QueryEscape name = lit "john%40beatles.com" := by rw [hname]; decide
  rw [hesc] at hlater
  refine ⟨h1.mpr (by decide), ?_, ?_⟩
  · exact hlater { Email := lit "john@beatles.com" } (lit "p")
      (Or.inr (Or.inl ⟨rfl, hname.symm⟩)) (by decide)
  · exact hlater { ID := lit "john@beatles.com" } (lit "p")
      (Or.inr (Or.inr ⟨rfl, rfl, hname.symm⟩)) (by decide)

/-! ## CreateUser: the content written -/

/-- A file is its lines, one after the other, followed by what comes after the last
`'\n'`. -/
theorem readLines_concat (file : Str) :
    ∃ tail, nl ∉ tail ∧ file = concatLines (readLines file) ++ tail := by
  induction file with
  | nil => exact ⟨[], by simp, rfl⟩
  | cons b r ih =>
    obtain ⟨tail, htail, hr⟩ := ih
    by_cases hb : b = nl
    · refine ⟨tail, htail, ?_⟩
      simp only [readLines, hb, if_true, concatLines, List.singleton_append, List.cons_append,
        List.nil_append]
      rw [← hr]
    · cases hl : readLines r with
      | nil =>
        refine ⟨b :: tail, ?_, ?_⟩
        · simp only [List.mem_cons, not_or]
          exact ⟨fun e => hb e.symm, htail⟩
        · rw [hl] at hr
          simp only [readLines, hb, if_false, hl, concatLines, List.nil_append] at hr ⊢
          rw [hr]
      | cons line more =>
        refine ⟨tail, htail, ?_⟩
        rw [hl] at hr
        simp only [readLines, hb, if_false, hl, concatLines, List.cons_append] at hr ⊢
        rw [hr]

theorem concatLines_readLines {file : Str} (h : file = [] ∨ file.getLast? = some nl) :
    concatLines (readLines file) = file := by
  obtain ⟨tail, htail, hf⟩ := readLines_concat file
  rcases List.eq_nil_or_concat' tail with e | ⟨x, b, e⟩
  · rw [e, List.append_nil] at hf
    exact hf.symm
  · exfalso
    rcases h with h | h
    · rw [h] at hf
      have := congrArg List.length hf
      simp only [e, List.length_nil, List.length_append, List.length_singleton] at this
      omega
    · rw [hf, e, ← List.append_assoc, List.getLast?_concat] at h
      have hb : b = nl := Option.some.inj h
      apply htail
      rw [e, hb]
      simp

theorem unlines_records_of_trimmed (lines : List Str)
    (h : ∀ line ∈ lines, TrimSpace line ++ [nl] = line) :
    unlines (lines.map TrimSpace) = concatLines lines := by
  induction lines with
  | nil => rfl
  | cons line more ih =>
    have h1 := h line (List.mem_cons_self _ _)
    have h2 := ih fun l hl => h l (List.mem_cons_of_mem _ hl)
    simp only [List.map_cons, unlines, concatLines, h2]
    conv_rhs => rw [← h1]
    simp

/-- C10 (as amended): on a file that is empty or ends in '\n', for every candidate for
which CreateUser succeeds (the hash being free of '\n'), the new content is every line
of the old content with its surrounding white space trimmed, followed by the single line
"<percent-encoded canonical username>:<hash>:<attribute query string>\n"; when no line of
the old content has surrounding white space, this is the old content byte for byte
followed by that line; and the file gains exactly one line. -/
theorem CreateUser_appends (H : Hasher) (file : Str) (user : User) (pw name cpw : Str)
    (hname : canonicalUsername user = some name)
    (hgen : H.GenerateFromPassword pw = some cpw)
    (hnl : nl ∉ cpw)
    (hterm : file = [] ∨ file.getLast? = some nl)
    (hok : (CreateUser H file user pw).1 = none) :
    (CreateUser H file user pw).2
        = unlines ((readLines file).map TrimSpace)
          ++ (QueryEscape name ++ [colon] ++ cpw ++ [colon] ++ (userValues user).Encode ++ [nl])
    ∧ ((∀ line ∈ readLines file, TrimSpace line ++ [nl] = line)
      → (CreateUser H file user pw).2
          = file ++ (QueryEscape name ++ [colon] ++ cpw ++ [colon]
              ++ (userValues user).Encode ++ [nl]))
    ∧ (readLines (CreateUser H file user pw).2).length = (readLines file).length + 1 := by
  have hne := canonicalUsername_ne_nil hname
  have hfree : hasRecord file (QueryEscape name) = false := by
    rw [CreateUser_eq H file user pw name cpw hname hgen] at hok
    cases h : hasRecord file (QueryEscape name) with
    | false => rfl
    | true => simp [h] at hok
  have hrec : newRecord (QueryEscape name) cpw user ++ [nl]
      = QueryEscape name ++ [colon] ++ cpw ++ [colon] ++ (userValues user).Encode ++ [nl] := by
    simp [newRecord_eq]
  rw [CreateUser_ok hname hgen hfree, hrec]
  refine ⟨rfl, ?_, ?_⟩
  · intro htrim
    show unlines (records file) ++ _ = _
    rw [records, unlines_records_of_trimmed _ htrim, concatLines_readLines hterm]
  · rw [← hrec, readLines_unlines _ (fun t ht => (records_good ht).1)]
    have h1 := readLines_line [] (newRecord_good user hne hnl).1
    rw [h1]
    simp [records, readLines]

theorem CreateUser_appends_witness :
    (readLines (CreateUser demoHasher (lit "paul:x:\n") { Username := lit "john" }
        (lit "p")).2).length = 2 :=
  (CreateUser_appends demoHasher (lit "paul:x:\n") { Username := lit "john" } (lit "p")
    (lit "john") (lit "p") (by decide) (by decide) (by decide) (by decide) (by decide)).2.2

/-- C10 (as stated) fails on a file whose line ends in "\r\n": CreateUser succeeds, and the
new content is not the old content followed by the new line, because the old line was
written back without its '\r'. -/
theorem CreateUser_appends_counterexample :
    (CreateUser demoHasher (lit "paul:x:\r\n") { Username := lit "john" } (lit "p")).1 = none
    ∧ (CreateUser demoHasher (lit "paul:x:\r\n") { Username := lit "john" } (lit "p")).2
        = lit "paul:x:\njohn:p:\n"
    ∧ (CreateUser demoHasher (lit "paul:x:\r\n") { Username := lit "john" } (lit "p")).2
        ≠ lit "paul:x:\r\n" ++ lit "john:p:\n" := by
  decide

/-! ## UpdatePassword: the content written -/

theorem mem_Join_of_mem {parts : List Str} {p : Str} {b : Byte} (sep : Byte)
    (hp : p ∈ parts) (hb : b ∈ p) : b ∈ Join parts sep := by
  induction parts with
  | nil => simp at hp
  | cons q qs ih =>
    cases qs with
    | nil =>
      simp only [List.mem_singleton] at hp
      subst hp
      simpa [Join] using hb
    | cons r more =>
      simp only [Join, List.mem_append, List.mem_cons]
      rcases List.mem_cons.mp hp with rfl | hp2
      · exact Or.inl hb
      · exact Or.inr (Or.inr (ih hp2))

theorem prefix_before_sep {r a : Str} {sep : Byte} (y : Str) (hr : sep ∉ r)
    (h : r <+: a ++ sep :: y) : r <+: a := by
  induction a generalizing r with
  | nil =>
    cases r with
    | nil => exact List.prefix_refl _
    | cons c r2 =>
      have := (List.cons_prefix_cons.mp h).1
      exact absurd (by simp [this]) hr
  | cons b a2 ih =>
    cases r with
    | nil => exact List.nil_prefix
    | cons c r2 =>
      obtain ⟨h1, h2⟩ := List.cons_prefix_cons.mp h
      have hr2 : sep ∉ r2 := fun hm => hr (List.mem_cons_of_mem _ hm)
      exact List.cons_prefix_cons.mpr ⟨h1, ih hr2 h2⟩

theorem suffix_after_sep {r a : Str} {sep : Byte} (y : Str) (hr : sep ∉ r)
    (h : r <:+ y ++ sep :: a) : r <:+ a := by
  have h2 : r.reverse <+: a.reverse ++ sep :: y.reverse := by
    have := List.reverse_prefix.mpr h
    simpa using this
  exact List.reverse_prefix.mp (prefix_before_sep _ (by simpa using hr) h2)

theorem hasKey_fields {x t : Str} (h : hasKey x t = true) :
    ∃ p1 rest, Split t colon = x :: p1 :: rest := by
  simp only [hasKey, decide_eq_true_eq] at h
  obtain ⟨hlen, h0⟩ := h
  rcases hs : Split t colon with _ | ⟨p0, _ | ⟨p1, rest⟩⟩
  · rw [hs] at hlen; simp at hlen
  · rw [hs] at hlen; simp at hlen
  · rw [hs] at h0
    simp only [List.getD_cons_zero] at h0
    exact ⟨p1, rest, by rw [h0]⟩

/-- The line written for a matching record: the same fields with the new hash in second
place; it is again a record of the same username, holds no `'\n'` and has no white space
at either end. -/
theorem setHash_matching {x cpw t : Str} (hk : hasKey x t = true) (ht : nl ∉ t ∧ Trimmed t)
    (hcolon : colon ∉ cpw) (hspace : ∀ r ∈ spaceRunes, ¬ r <:+: cpw) :
    Split (setHash x cpw t) colon = (Split t colon).set 1 cpw
    ∧ hasKey x (setHash x cpw t) = true
    ∧ nl ∉ setHash x cpw t ∧ Trimmed (setHash x cpw t) := by
  obtain ⟨p1, rest, hs⟩ := hasKey_fields hk
  have hfields := Split_not_mem t colon
  rw [hs] at hfields
  have hjoin : t = Join (x :: p1 :: rest) colon := by rw [← hs, Join_Split]
  have hset : setHash x cpw t = Join (x :: cpw :: rest) colon := by
    simp [setHash, hk, hs]
  have hnew : ∀ p ∈ x :: cpw :: rest, colon ∉ p := by
    intro p hp
    simp only [List.mem_cons] at hp
    rcases hp with rfl | rfl | hp
    · exact hfields _ (by simp)
    · exact hcolon
    · exact hfields p (by simp [hp])
  have hsplit : Split (setHash x cpw t) colon = x :: cpw :: rest := by
    rw [hset]; exact Split_Join (by simp) hnew
  have hnlc : nl ∉ cpw := by
    intro hm
    obtain ⟨a, b, e⟩ := List.append_of_mem hm
    exact hspace [nl] (by decide) ⟨a, b, by simp [e]⟩
  refine ⟨by rw [hsplit, hs]; rfl, by simp [hasKey, hsplit], ?_, ?_, ?_⟩
  · intro hm
    rw [hset] at hm
    rcases mem_Join hm with e | ⟨p, hp, hb⟩
    · exact absurd e (by decide)
    · simp only [List.mem_cons] at hp
      rcases hp with rfl | rfl | hp
      · exact ht.1 (hjoin ▸ mem_Join_of_mem colon (List.mem_cons_self _ _) hb)
      · exact hnlc hb
      · exact ht.1 (hjoin ▸ mem_Join_of_mem colon (by simp [hp]) hb)
  · intro r hr hp
    rw [hset, Join] at hp
    have h1 := prefix_before_sep _ (spaceRunes_colon r hr) hp
    apply ht.2.1 r hr
    rw [hjoin, Join]
    exact h1.trans (List.prefix_append _ _)
  · intro r hr hsuf
    rw [hset] at hsuf
    cases rest with
    | nil =>
      simp only [Join] at hsuf
      have h1 := suffix_after_sep _ (spaceRunes_colon r hr) hsuf
      exact hspace r hr h1.isInfix
    | cons q more =>
      have e1 : Join (x :: cpw :: q :: more) colon
          = (x ++ colon :: cpw) ++ colon :: Join (q :: more) colon := by simp [Join]
      have e2 : Join (x :: p1 :: q :: more) colon
          = (x ++ colon :: p1) ++ colon :: Join (q :: more) colon := by simp [Join]
      rw [e1] at hsuf
      have h1 := suffix_after_sep _ (spaceRunes_colon r hr) hsuf
      apply ht.2.2 r hr
      rw [hjoin, e2]
      exact h1.trans ⟨x ++ colon :: p1 ++ [colon], by simp⟩

theorem setHash_other {x cpw t : Str} (hk : hasKey x t = false) : setHash x cpw t = t := by
  simp [setHash, hk]

theorem setHash_good {x cpw t : Str} (ht : nl ∉ t ∧ Trimmed t)
    (hcolon : colon ∉ cpw) (hspace : ∀ r ∈ spaceRunes, ¬ r <:+: cpw) :
    (nl ∉ setHash x cpw t ∧ Trimmed (setHash x cpw t))
      ∧ hasKey x (setHash x cpw t) = hasKey x t := by
  cases hk : hasKey x t with
  | false => rw [setHash_other hk]; exact ⟨ht, hk⟩
  | true =>
    have h := setHash_matching hk ht hcolon hspace
    exact ⟨h.2.2, h.2.1⟩

theorem authenticatedUser_set (username cpw : Str) (parts : List Str) :
    authenticatedUser username (parts.set 1 cpw) = authenticatedUser username parts := by
  rcases parts with _ | ⟨p0, _ | ⟨p1, rest⟩⟩ <;> simp [authenticatedUser]

theorem records_updated {x cpw : Str} (file : Str) (hcolon : colon ∉ cpw)
    (hspace : ∀ r ∈ spaceRunes, ¬ r <:+: cpw) :
    records (unlines ((records file).map (setHash x cpw)))
      = (records file).map (setHash x cpw) := by
  apply records_unlines_nil
  intro t ht
  obtain ⟨s, hs, rfl⟩ := List.mem_map.mp ht
  exact (setHash_good (records_good hs) hcolon hspace).1

theorem find_congr {α : Type} {p q : α → Bool} {l : List α} (h : ∀ x ∈ l, p x = q x) :
    l.find? p = l.find? q := by
  induction l with
  | nil => rfl
  | cons a rest ih =>
    have ha := h a (List.mem_cons_self _ _)
    have hr := ih fun x hx => h x (List.mem_cons_of_mem _ hx)
    simp only [List.find?_cons, ha, hr]

theorem firstRecord_updated {x cpw : Str} (file : Str) (hcolon : colon ∉ cpw)
    (hspace : ∀ r ∈ spaceRunes, ¬ r <:+: cpw) :
    firstRecord (unlines ((records file).map (setHash x cpw))) x
      = (firstRecord file x).map (setHash x cpw) := by
  rw [firstRecord, records_updated file hcolon hspace, List.find?_map, firstRecord]
  congr 1
  apply find_congr
  intro t ht
  exact (setHash_good (records_good ht) hcolon hspace).2

/-- C4 (as amended): on a file whose first record for username x is t, for a new password
that the hasher hashes to a text free of ':' and of white space, verifies as a match and
verifies every other password as a mismatch, UpdatePassword succeeds; when the file ends
in '\n', every line of it is written with its surrounding white space trimmed, a line that
is not a record of x otherwise unchanged, a record of x with the new hash as its second
field and all its other fields (username, attributes) unchanged; the records of the new
content are those of the old one, rewritten so; Authenticate(x, new) afterwards returns the
User built from the fields t had before, and Authenticate(x, q) returns an absent User and
no error for every other password q. -/
theorem UpdatePassword_scoped (H : Hasher) (file x new cpw t : Str)
    (hfirst : firstRecord file (QueryEscape x) = some t)
    (hgen : H.GenerateFromPassword new = some cpw)
    (hmatch : H.CompareHashAndPassword cpw new = .matched)
    (hmis : ∀ q, q ≠ new → H.CompareHashAndPassword cpw q = .mismatch)
    (hcolon : colon ∉ cpw)
    (hspace : ∀ r ∈ spaceRunes, ¬ r <:+: cpw) :
    (UpdatePassword H file x new).1 = none
    ∧ (file.getLast? = some nl → (UpdatePassword H file x new).2
        = unlines (((readLines file).map TrimSpace).map (setHash (QueryEscape x) cpw)))
    ∧ records (UpdatePassword H file x new).2
        = (records file).map (setHash (QueryEscape x) cpw)
    ∧ (∀ s ∈ records file, hasKey (QueryEscape x) s = false
        → setHash (QueryEscape x) cpw s = s)
    ∧ (∀ s ∈ records file, hasKey (QueryEscape x) s = true
        → Split (setHash (QueryEscape x) cpw s) colon = (Split s colon).set 1 cpw)
    ∧ Authenticate H (UpdatePassword H file x new).2 x new
        = .ok (some (authenticatedUser x (Split t colon)))
    ∧ (∀ q, q ≠ new → Authenticate H (UpdatePassword H file x new).2 x q = .ok none) := by
  have hmem : t ∈ records file := List.mem_of_find?_eq_some hfirst
  have hkey : hasKey (QueryEscape x) t = true := List.find?_some hfirst
  have hrec : hasRecord file (QueryEscape x) = true :=
    List.any_eq_true.mpr ⟨t, hmem, hkey⟩
  have hup : UpdatePassword H file x new
      = (none, unlines ((records file).map (setHash (QueryEscape x) cpw))) := by
    rw [UpdatePassword_eq H file x new cpw hgen, hrec]
    simp
  have ht := setHash_matching hkey (records_good hmem) hcolon hspace
  have hlen : 2 ≤ (Split t colon).length := by
    obtain ⟨p1, rest, hs⟩ := hasKey_fields hkey
    rw [hs]
    simp
  have hfield : ((Split t colon).set 1 cpw).getD 1 [] = cpw := by
    obtain ⟨p1, rest, hs⟩ := hasKey_fields hkey
    rw [hs]
    rfl
  have hauth : ∀ q, Authenticate H (UpdatePassword H file x new).2 x q
      = verdictResult H x q (some (setHash (QueryEscape x) cpw t)) := by
    intro q
    rw [hup, Authenticate_eq, firstRecord_updated file hcolon hspace, hfirst]
    rfl
  refine ⟨by rw [hup], fun _ => by rw [hup]; rfl, ?_, ?_, ?_, ?_, ?_⟩
  · rw [hup]
    exact records_updated file hcolon hspace
  · intro s _ hs
    exact setHash_other hs
  · intro s hs hk
    exact (setHash_matching hk (records_good hs) hcolon hspace).1
  · rw [hauth]
    simp only [verdictResult, ht.1, hfield, hmatch, authenticatedUser_set]
  · intro q hq
    rw [hauth]
    simp only [verdictResult, ht.1, hfield, hmis q hq]

theorem UpdatePassword_scoped_witness :
    Authenticate demoHasher
        (UpdatePassword demoHasher (lit "paul:x:\njohn:old:email=j\n") (lit "john")
          (lit "new")).2 (lit "john") (lit "old") = .ok none :=
  (UpdatePassword_scoped demoHasher (lit "paul:x:\njohn:old:email=j\n") (lit "john")
    (lit "new") (lit "new") (lit "john:old:email=j") (by decide) (by decide) (by decide)
    (fun q hq => by
      have h : lit "new" ≠ QueryEscape q := fun e =>
        hq (@QueryEscape_injective q (lit "new") (by rw [← e]; decide))
      simp [demoHasher, h])
    (by decide) (by decide)).2.2.2.2.2.2 (lit "old") (by decide)

/-- C4 (as stated) fails on a file with a line ending in "\r\n" that is not a record of
the user: UpdatePassword succeeds, and that line is not among the lines of the new
content, where it stands without its '\r'. -/
theorem UpdatePassword_scoped_counterexample :
    (UpdatePassword demoHasher (lit "paul:x:\r\njohn:old:\n") (lit "john") (lit "new")).1 = none
    ∧ lit "paul:x:\r\n" ∈ readLines (lit "paul:x:\r\njohn:old:\n")
    ∧ hasKey (QueryEscape (lit "john")) (TrimSpace (lit "paul:x:\r\n")) = false
    ∧ lit "paul:x:\r\n" ∉ readLines
        (UpdatePassword demoHasher (lit "paul:x:\r\njohn:old:\n") (lit "john") (lit "new")).2
    ∧ (UpdatePassword demoHasher (lit "paul:x:\r\njohn:old:\n") (lit "john") (lit "new")).2
        = lit "paul:x:\njohn:new:\n" := by
  decide

/-! ## Worked examples of the error claims -/

theorem CreateUser_duplicate_witness :
    (CreateUser demoHasher (lit "john:x:\n") { Email := lit "john" } (lit "p")).1
        = some (.alreadyExists (lit "john"))
    ∧ (CreateUser demoHasher (lit "john:x:\n") { Email := lit "john" } (lit "p")).2
        = lit "john:x:\n" :=
  have h := CreateUser_duplicate demoHasher (lit "john:x:\n") { Email := lit "john" }
    (lit "p") (lit "john") (lit "p") (by decide) (by decide)
  ⟨h.1.mpr (by decide), h.2.2 (by decide)⟩

theorem UpdatePassword_missing_witness :
    (UpdatePassword demoHasher (lit "john:x:\n") (lit "paul") (lit "p")).1
        = some (.doesNotExist (lit "paul"))
    ∧ (UpdatePassword demoHasher (lit "john:x:\n") (lit "paul") (lit "p")).2
        = lit "john:x:\n" :=
  have h := UpdatePassword_missing demoHasher (lit "john:x:\n") (lit "paul") (lit "p")
    (lit "p") (by decide)
  ⟨h.1.mpr (by decide), h.2.2 (by decide)⟩

theorem DeleteUser_keeps_others_witness :
    lit "paul" ≠ lit "john"
    ∧ Authenticate demoHasher
        (DeleteUser (lit "john:a:\npaul:b:email=p\n") (lit "john")).2 (lit "paul") (lit "b")
      = Authenticate demoHasher (lit "john:a:\npaul:b:email=p\n") (lit "paul") (lit "b") :=
  ⟨by decide, DeleteUser_keeps_others demoHasher (lit "john:a:\npaul:b:email=p\n")
    (lit "john") (lit "paul") (lit "b") (by decide)⟩

/-! ## GetUserByEmail -/

theorem getUserByEmailLoop_eq (email : Str) (lines : List Str) :
    getUserByEmailLoop email lines
      = ((lines.map TrimSpace).find? (emailMatch email)).map userOfRecord := by
  induction lines with
  | nil => rfl
  | cons line rest ih =>
    by_cases h : emailMatch email (TrimSpace line) = true
    · have h2 := h
      simp only [emailMatch, decide_eq_true_eq] at h2
      simp only [getUserByEmailLoop, h2.1, h2.2.1, h2.2.2, and_self, if_true, List.map_cons,
        List.find?_cons, h, Option.map_some', userOfRecord]
    · have h2 := h
      simp only [emailMatch, decide_eq_true_eq] at h2
      simp only [Bool.not_eq_true] at h
      by_cases h3 : (Split (TrimSpace line) colon).length ≥ 3
      · have h4 : ¬ ((ParseQuery ((Split (TrimSpace line) colon).getD 2 [])).2 = false
            ∧ (ParseQuery ((Split (TrimSpace line) colon).getD 2 [])).1.Get (lit "email")
                = email) := fun e => h2 ⟨h3, e⟩
        simp only [getUserByEmailLoop, h3, if_true, h4, if_false, ih, List.map_cons,
          List.find?_cons, h]
      · simp only [getUserByEmailLoop, h3, if_false, ih, List.map_cons, List.find?_cons, h]

theorem GetUserByEmail_eq (file email : Str) :
    GetUserByEmail file email
      = .ok (((records file).find? (emailMatch email)).map userOfRecord) := by
  simp only [GetUserByEmail, ReadLocked, getUserByEmailLoop_eq, records]

/-- C12: GetUserByEmail never returns an error; it returns the User built from the first
record whose attribute field parses and holds the input as its `email`, with Provider
"htpasswd" and Email equal to the input; a line with fewer than three fields or with an
attribute field that fails to parse is never the record matched; and it returns an absent
User when no record matches. -/
theorem GetUserByEmail_lookup (file email : Str) :
    (∃ found, GetUserByEmail file email = .ok found)
    ∧ GetUserByEmail file email
        = .ok (((records file).find? (emailMatch email)).map userOfRecord)
    ∧ (∀ user, GetUserByEmail file email = .ok (some user)
        → user.Provider = lit "htpasswd" ∧ user.Email = email)
    ∧ (∀ t, (Split t colon).length < 3 → emailMatch email t = false)
    ∧ (∀ t, (ParseQuery ((Split t colon).getD 2 [])).2 = true → emailMatch email t = false)
    ∧ ((∀ t ∈ records file, emailMatch email t = false)
        → GetUserByEmail file email = .ok none) := by
  rw [GetUserByEmail_eq]
  refine ⟨⟨_, rfl⟩, rfl, ?_, ?_, ?_, ?_⟩
  · intro user hu
    cases hf : (records file).find? (emailMatch email) with
    | none => rw [hf] at hu; cases hu
    | some t =>
      rw [hf] at hu
      have hm : emailMatch email t = true := List.find?_some hf
      simp only [emailMatch, decide_eq_true_eq] at hm
      simp only [Option.map_some', Except.ok.injEq, Option.some.injEq] at hu
      rw [← hu]
      exact ⟨rfl, hm.2.2⟩
  · intro t ht
    simp only [emailMatch, decide_eq_false_iff_not]
    exact fun e => absurd e.1 (by omega)
  · intro t ht
    simp only [emailMatch, decide_eq_false_iff_not, ht]
    exact fun e => absurd e.2.1 (by simp)
  · intro h
    have : (records file).find? (emailMatch email) = none := by
      rw [List.find?_eq_none]
      intro t ht
      simp [h t ht]
    rw [this]
    rfl

theorem userOfRecord_newRecord {name cpw : Str} (user : User) (hcolon : colon ∉ cpw) :
    userOfRecord (newRecord (QueryEscape name) cpw user)
      = { Username := QueryEscape name, ID := user.ID, FirstName := user.FirstName,
          LastName := user.LastName, FullName := user.FullName, Email := user.Email,
          Avatar := user.Avatar, Provider := lit "htpasswd" } := by
  obtain ⟨h1, h2, h3, h4, h5, h6⟩ := userValues_Get user
  have hp := ParseQuery_Encode (userValues user)
  simp only [userOfRecord, Split_newRecord user hcolon, List.getD_cons_succ,
    List.getD_cons_zero, hp, Get_sortByKey, h1, h2, h3, h4, h5, h6]

theorem emailMatch_newRecord {name cpw : Str} (user : User) (hcolon : colon ∉ cpw) :
    emailMatch user.Email (newRecord (QueryEscape name) cpw user) = true := by
  have h5 := (userValues_Get user).2.2.2.2.1
  have hp := ParseQuery_Encode (userValues user)
  simp only [emailMatch, Split_newRecord user hcolon, List.getD_cons_succ,
    List.getD_cons_zero, hp, Get_sortByKey, h5, List.length_cons, List.length_nil,
    decide_eq_true_eq]
  exact ⟨by omega, trivial, trivial⟩

/-- What GetUserByEmail returns for a user just created, on a file that held no record
with the user's email: the fields of the candidate, Provider "htpasswd", and as Username
the percent-encoded canonical username, as it stands in the file. -/
theorem GetUserByEmail_after_CreateUser (H : Hasher) (file : Str) (user : User)
    (pw name cpw : Str)
    (hname : canonicalUsername user = some name)
    (hfree : hasRecord file (QueryEscape name) = false)
    (hemail : ∀ t ∈ records file, emailMatch user.Email t = false)
    (hgen : H.GenerateFromPassword pw = some cpw)
    (hcolon : colon ∉ cpw) (hnl : nl ∉ cpw) :
    GetUserByEmail (CreateUser H file user pw).2 user.Email
      = .ok (some { Username := QueryEscape name, ID := user.ID,
                    FirstName := user.FirstName, LastName := user.LastName,
                    FullName := user.FullName, Email := user.Email, Avatar := user.Avatar,
                    Provider := lit "htpasswd" }) := by
  have hne := canonicalUsername_ne_nil hname
  rw [CreateUser_ok hname hgen hfree, GetUserByEmail_eq, records_created file user hne hnl,
    List.find?_append]
  have hnone : (records file).find? (emailMatch user.Email) = none := by
    rw [List.find?_eq_none]
    intro t ht
    simp [hemail t ht]
  rw [hnone]
  simp only [Option.none_or, List.find?_cons, emailMatch_newRecord user hcolon,
    Option.map_some', userOfRecord_newRecord user hcolon]

/-- C11: for the candidate whose only identifier is the Email "john@beatles.com", created
on an empty file, GetUserByEmail returns the Username "john%40beatles.com" and
Authenticate with the canonical username returns the Username "john@beatles.com": the two
Users differ in Username (and in nothing else). -/
theorem GetUserByEmail_username_encoded :
    GetUserByEmail
        (CreateUser demoHasher [] { Email := lit "john@beatles.com" } (lit "p")).2
        (lit "john@beatles.com")
      = .ok (some { Username := lit "john%40beatles.com", Email := lit "john@beatles.com",
                    Provider := lit "htpasswd" })
    ∧ Authenticate demoHasher
        (CreateUser demoHasher [] { Email := lit "john@beatles.com" } (lit "p")).2
        (lit "john@beatles.com") (lit "p")
      = .ok (some { Username := lit "john@beatles.com", Email := lit "john@beatles.com",
                    Provider := lit "htpasswd" }) := by
  decide

/-! ## Authenticate: provider tag and errors -/

/-- C13: for the record "bob:p" (no attributes field) and for the record "bob:p:%zz" (an
attributes field that does not parse), Authenticate with the matching password returns a
User whose Provider is empty, not "htpasswd". -/
theorem Authenticate_provider_unset :
    Authenticate demoHasher (lit "bob:p\n") (lit "bob") (lit "p")
        = .ok (some { Username := lit "bob", Provider := [] })
    ∧ Authenticate demoHasher (lit "bob:p:%zz\n") (lit "bob") (lit "p")
        = .ok (some { Username := lit "bob", Provider := [] }) := by
  decide

/-- The provider tag is set for every authenticated record that has an attributes field
which parses. -/
theorem authenticatedUser_provider (username : Str) (parts : List Str)
    (hlen : parts.length ≥ 3) (hparse : (ParseQuery (parts.getD 2 [])).2 = false) :
    (authenticatedUser username parts).Provider = lit "htpasswd" := by
  simp only [authenticatedUser, hlen, if_true, hparse]

/-- C14: Authenticate returns an error if and only if the first record whose username field
is the percent-encoded username has a hash field on which the hasher reports an error
rather than a match or a mismatch; lines in front of the file that are not records of the
username (fewer than two fields, or another username, whatever their hash and attributes)
do not change the result, and an attributes field that does not parse on the matching
record does not make it an error. -/
theorem Authenticate_errors (H : Hasher) (file username password : Str) :
    ((∃ e, Authenticate H file username password = .error e)
      ↔ ∃ t, firstRecord file (QueryEscape username) = some t
          ∧ H.CompareHashAndPassword ((Split t colon).getD 1 []) password = .failure)
    ∧ (∀ t, (Split t colon).length < 2 → hasKey (QueryEscape username) t = false)
    ∧ (∀ junk : List Str,
        (∀ j ∈ junk, nl ∉ j ∧ hasKey (QueryEscape username) (TrimSpace (j ++ [nl])) = false)
        → Authenticate H (unlines junk ++ file) username password
            = Authenticate H file username password)
    ∧ (∀ t, firstRecord file (QueryEscape username) = some t
        → H.CompareHashAndPassword ((Split t colon).getD 1 []) password = .matched
        → ∃ user, Authenticate H file username password = .ok (some user)) := by
  refine ⟨?_, ?_, ?_, ?_⟩
  · rw [Authenticate_eq]
    cases hf : firstRecord file (QueryEscape username) with
    | none => simp [verdictResult]
    | some t =>
      cases hv : H.CompareHashAndPassword ((Split t colon).getD 1 []) password <;>
        simp only [verdictResult, hv, Option.some.injEq, exists_eq_left', reduceCtorEq,
          exists_false, Except.error.injEq, exists_eq']
  · intro t ht
    simp only [hasKey, decide_eq_false_iff_not]
    exact fun e => absurd e.1 (by omega)
  · intro junk hjunk
    rw [Authenticate_eq, Authenticate_eq, firstRecord, firstRecord, records,
      readLines_unlines file (fun j hj => (hjunk j hj).1), List.map_append, List.find?_append]
    have hnone : ((junk.map (· ++ [nl])).map TrimSpace).find? (hasKey (QueryEscape username))
        = none := by
      rw [List.find?_eq_none]
      intro t ht
      obtain ⟨l, hl, rfl⟩ := List.mem_map.mp ht
      obtain ⟨j, hj, rfl⟩ := List.mem_map.mp hl
      simp [(hjunk j hj).2]
    rw [hnone]
    rfl
  · intro t hf hv
    rw [Authenticate_eq, hf]
    refine ⟨authenticatedUser username (Split t colon), ?_⟩
    simp only [verdictResult, hv]

/-! ## Bytes after the last newline -/

theorem readLines_concatLines {ls : List Str} (t : Str)
    (h : ∀ line ∈ ls, ∃ x, line = x ++ [nl] ∧ nl ∉ x) :
    readLines (concatLines ls ++ t) = ls ++ readLines t := by
  induction ls with
  | nil => rfl
  | cons line more ih =>
    obtain ⟨x, rfl, hx⟩ := h line (List.mem_cons_self _ _)
    have hmore := ih fun l hl => h l (List.mem_cons_of_mem _ hl)
    simp only [concatLines, List.append_assoc, List.singleton_append, List.cons_append]
    rw [readLines_line _ hx, List.nil_append, hmore]

/-- Bytes after the last `'\n'` of a file are not a line. -/
theorem readLines_append_tail {c t : Str} (hterm : c = [] ∨ c.getLast? = some nl)
    (ht : nl ∉ t) : readLines (c ++ t) = readLines c := by
  have hc := concatLines_readLines hterm
  have h := readLines_concatLines t (fun line hl => readLines_shape (c := c) hl)
  rw [hc, readLines_of_not_mem ht, List.append_nil] at h
  exact h

/-- C19: for a file content c that is empty or ends in '\n' and a text t without '\n',
each of the five operations returns on c followed by t what it returns on c alone, and
each of CreateUser, UpdatePassword and DeleteUser, when it succeeds, writes the same
content for both. -/
theorem unterminated_tail_ignored (H : Hasher) (c t : Str) (user : User)
    (email username password : Str)
    (hterm : c = [] ∨ c.getLast? = some nl) (ht : nl ∉ t) :
    GetUserByEmail (c ++ t) email = GetUserByEmail c email
    ∧ Authenticate H (c ++ t) username password = Authenticate H c username password
    ∧ (CreateUser H (c ++ t) user password).1 = (CreateUser H c user password).1
    ∧ (UpdatePassword H (c ++ t) username password).1
        = (UpdatePassword H c username password).1
    ∧ (DeleteUser (c ++ t) username).1 = (DeleteUser c username).1
    ∧ ((CreateUser H c user password).1 = none
        → (CreateUser H (c ++ t) user password).2 = (CreateUser H c user password).2)
    ∧ ((UpdatePassword H c username password).1 = none
        → (UpdatePassword H (c ++ t) username password).2
            = (UpdatePassword H c username password).2)
    ∧ ((DeleteUser c username).1 = none
        → (DeleteUser (c ++ t) username).2 = (DeleteUser c username).2) := by
  have h := readLines_append_tail hterm ht
  have hrec : records (c ++ t) = records c := by rw [records, h, records]
  have hhas : ∀ x, hasRecord (c ++ t) x = hasRecord c x := fun x => by
    rw [hasRecord, hrec, hasRecord]
  refine ⟨?_, ?_, ?_, ?_, ?_, ?_, ?_, ?_⟩
  · rw [GetUserByEmail_eq, GetUserByEmail_eq, hrec]
  · rw [Authenticate_eq, Authenticate_eq, firstRecord, firstRecord, hrec]
  · cases hc : canonicalUsername user with
    | none => simp [CreateUser, hc]
    | some name =>
      cases hg : H.GenerateFromPassword password with
      | none => simp [CreateUser, hc, hg]
      | some cpw =>
        rw [CreateUser_eq H _ user password name cpw hc hg,
          CreateUser_eq H _ user password name cpw hc hg, hhas]
        cases hasRecord c (QueryEscape name) <;> simp
  · cases hg : H.GenerateFromPassword password with
    | none => simp [UpdatePassword, hg]
    | some cpw =>
      rw [UpdatePassword_eq H _ username password cpw hg,
        UpdatePassword_eq H _ username password cpw hg, hhas]
      cases hasRecord c (QueryEscape username) <;> simp
  · rw [DeleteUser_eq, DeleteUser_eq]
  · cases hc : canonicalUsername user with
    | none => simp [CreateUser, hc]
    | some name =>
      cases hg : H.GenerateFromPassword password with
      | none => simp [CreateUser, hc, hg]
      | some cpw =>
        rw [CreateUser_eq H _ user password name cpw hc hg,
          CreateUser_eq H _ user password name cpw hc hg, hhas, hrec]
        cases hasRecord c (QueryEscape name) <;> simp
  · cases hg : H.GenerateFromPassword password with
    | none => simp [UpdatePassword, hg]
    | some cpw =>
      rw [UpdatePassword_eq H _ username password cpw hg,
        UpdatePassword_eq H _ username password cpw hg, hhas, hrec]
      cases hasRecord c (QueryEscape username) <;> simp
  · intro _
    rw [DeleteUser_eq, DeleteUser_eq, hrec]

theorem unterminated_tail_ignored_witness :
    (CreateUser demoHasher (lit "paul:x:\n" ++ lit "john:y:") { Username := lit "john" }
        (lit "p")).1 = none
    ∧ (CreateUser demoHasher (lit "paul:x:\n" ++ lit "john:y:") { Username := lit "john" }
        (lit "p")).2 = lit "paul:x:\njohn:p:\n" :=
  have h := unterminated_tail_ignored demoHasher (lit "paul:x:\n") (lit "john:y:")
    { Username := lit "john" } [] (lit "john") (lit "p") (by decide) (by decide)
  ⟨h.2.2.1.trans (by decide), (h.2.2.2.2.2.1 (by decide)).trans (by decide)⟩

/-! ## DeleteUser of a user that is not in the file -/

/-- C16 (as amended): on a file that is empty or ends in '\n' and holds no record whose
username field is the percent-encoded u, DeleteUser(u) returns no error and writes every
line of the file with its surrounding white space trimmed; the records of the file are the
same after the call, and when no line has surrounding white space the content after the
call is byte for byte the content before it. -/
theorem DeleteUser_missing (file u : Str)
    (hterm : file = [] ∨ file.getLast? = some nl)
    (hfree : hasRecord file (QueryEscape u) = false) :
    (DeleteUser file u).1 = none
    ∧ (DeleteUser file u).2 = unlines ((readLines file).map TrimSpace)
    ∧ records (DeleteUser file u).2 = records file
    ∧ ((∀ line ∈ readLines file, TrimSpace line ++ [nl] = line)
        → (DeleteUser file u).2 = file) := by
  have hall : (records file).filter (fun t => !hasKey (QueryEscape u) t) = records file := by
    rw [List.filter_eq_self]
    intro t ht
    rw [hasRecord, List.any_eq_false] at hfree
    simpa using hfree t ht
  have hd : DeleteUser file u = (none, unlines (records file)) := by
    rw [DeleteUser_eq, hall]
  rw [hd]
  refine ⟨rfl, rfl, records_unlines_nil (fun t ht => records_good ht), ?_⟩
  intro htrim
  show unlines (records file) = file
  rw [records, unlines_records_of_trimmed _ htrim, concatLines_readLines hterm]

theorem DeleteUser_missing_witness :
    DeleteUser (lit "paul:x:\njohn:y:\n") (lit "ringo") = (none, lit "paul:x:\njohn:y:\n") :=
  have h := DeleteUser_missing (lit "paul:x:\njohn:y:\n") (lit "ringo") (by decide)
    (by decide)
  Prod.ext h.1 (h.2.2.2 (by decide))

/-- C16 (as stated) fails on a file whose line ends in "\r\n": the file holds no record of
"ringo", DeleteUser("ringo") returns no error, and the content after the call is not the
content before it, because the line was written back without its '\r'. -/
theorem DeleteUser_missing_counterexample :
    hasRecord (lit "paul:x:\r\n") (QueryEscape (lit "ringo")) = false
    ∧ DeleteUser (lit "paul:x:\r\n") (lit "ringo") = (none, lit "paul:x:\n")
    ∧ (DeleteUser (lit "paul:x:\r\n") (lit "ringo")).2 ≠ lit "paul:x:\r\n" := by
  decide

/-! ## Uniqueness of the username field -/

theorem keyOf_eq_some {x t : Str} : keyOf t = some x ↔ hasKey x t = true := by
  simp only [keyOf, hasKey, decide_eq_true_eq]
  by_cases h : (Split t colon).length ≥ 2
  · simp [h]
  · simp [h]

theorem mem_keys {file x : Str} : x ∈ keys file ↔ hasRecord file x = true := by
  rw [keys, List.mem_filterMap, hasRecord, List.any_eq_true]
  constructor
  · rintro ⟨t, ht, hk⟩
    exact ⟨t, ht, keyOf_eq_some.mp hk⟩
  · rintro ⟨t, ht, hk⟩
    exact ⟨t, ht, keyOf_eq_some.mpr hk⟩

theorem nl_not_mem_of_spaceFree {cpw : Str} (h : ∀ r ∈ spaceRunes, ¬ r <:+: cpw) :
    nl ∉ cpw := by
  intro hm
  obtain ⟨a, b, e⟩ := List.append_of_mem hm
  exact h [nl] (by decide) ⟨a, b, by simp [e]⟩

theorem keyOf_setHash {x cpw t : Str} (ht : nl ∉ t ∧ Trimmed t) (hcolon : colon ∉ cpw)
    (hspace : ∀ r ∈ spaceRunes, ¬ r <:+: cpw) : keyOf (setHash x cpw t) = keyOf t := by
  cases hk : hasKey x t with
  | false => rw [setHash_other hk]
  | true =>
    have h := setHash_matching hk ht hcolon hspace
    rw [keyOf_eq_some.mpr hk, keyOf_eq_some.mpr h.2.1]

theorem keys_created {name cpw : Str} (file : Str) (user : User) (hname : name ≠ [])
    (hnl : nl ∉ cpw) :
    keys (unlines (records file) ++ (newRecord (QueryEscape name) cpw user ++ [nl]))
      = keys file ++ [QueryEscape name] := by
  rw [keys, records_created file user hname hnl, List.filterMap_append, keys]
  simp [keyOf_eq_some.mpr (hasKey_newRecord name cpw user)]

/-- C15: when every hash the hasher generates is free of ':' and of white space, and no
two records of the file (lines that, trimmed and split on ':', have at least two fields)
have the same username field, the same holds for the content of the file after a call of
CreateUser, of UpdatePassword and of DeleteUser, whether the call succeeds or fails. -/
theorem uniqueKeys_preserved (H : Hasher) (file : Str) (user : User) (username password : Str)
    (hclean : cleanHashes H) (huniq : uniqueKeys file) :
    uniqueKeys (CreateUser H file user password).2
    ∧ uniqueKeys (UpdatePassword H file username password).2
    ∧ uniqueKeys (DeleteUser file username).2 := by
  refine ⟨?_, ?_, ?_⟩
  · cases hc : canonicalUsername user with
    | none => simpa [CreateUser, hc] using huniq
    | some name =>
      cases hg : H.GenerateFromPassword password with
      | none => simpa [CreateUser, hc, hg] using huniq
      | some cpw =>
        rw [CreateUser_eq H file user password name cpw hc hg]
        cases hr : hasRecord file (QueryEscape name) with
        | true => simpa using huniq
        | false =>
          have hnl := nl_not_mem_of_spaceFree (hclean password cpw hg).2
          simp only [Bool.false_eq_true, if_false, uniqueKeys]
          rw [keys_created file user (canonicalUsername_ne_nil hc) hnl, List.nodup_append]
          refine ⟨huniq, List.nodup_singleton _, ?_⟩
          intro y hy hy2
          rw [List.mem_singleton.mp hy2, mem_keys, hr] at hy
          cases hy
  · cases hg : H.GenerateFromPassword password with
    | none => simpa [UpdatePassword, hg] using huniq
    | some cpw =>
      obtain ⟨hcolon, hspace⟩ := hclean password cpw hg
      rw [UpdatePassword_eq H file username password cpw hg]
      cases hr : hasRecord file (QueryEscape username) with
      | false => simpa using huniq
      | true =>
        simp only [if_true, uniqueKeys, keys]
        rw [records_updated file hcolon hspace, List.filterMap_map]
        have : (records file).filterMap (keyOf ∘ setHash (QueryEscape username) cpw)
            = (records file).filterMap keyOf :=
          List.filterMap_congr fun t ht => keyOf_setHash (records_good ht) hcolon hspace
        rw [this]
        exact huniq
  · rw [DeleteUser_eq, uniqueKeys, keys, records_unlines_nil (kept_good file _)]
    exact List.Nodup.sublist ((List.filter_sublist _).filterMap keyOf) huniq

theorem QueryEscape_spaceFree (s : Str) : ∀ r ∈ spaceRunes, ¬ r <:+: QueryEscape s := by
  intro r hr hinf
  cases r with
  | nil => exact spaceRunes_ne_nil [] hr rfl
  | cons b r2 =>
    obtain ⟨a, c, e⟩ := hinf
    have hb : b ∈ QueryEscape s := by rw [← e]; simp
    have h1 := (escSafe_bytes b (QueryEscape_safe s b hb)).2.2.2.2.2.1
    have h2 : leadByte b = true := List.any_eq_true.mpr ⟨b :: r2, hr, by simp⟩
    rw [h2] at h1
    cases h1

theorem demoHasher_clean : cleanHashes demoHasher := by
  intro password cpw h
  have e : cpw = QueryEscape password := by
    simp only [demoHasher, Option.some.injEq] at h
    exact h.symm
  subst e
  exact ⟨QueryEscape_not_mem _ (by decide), QueryEscape_spaceFree _⟩

theorem uniqueKeys_preserved_witness :
    uniqueKeys (CreateUser demoHasher (lit "paul:x:\njohn:y:\n") { Username := lit "paul" }
        (lit "p")).2
    ∧ uniqueKeys (UpdatePassword demoHasher (lit "paul:x:\njohn:y:\n") (lit "john")
        (lit "p")).2
    ∧ uniqueKeys (DeleteUser (lit "paul:x:\njohn:y:\n") (lit "john")).2 :=
  uniqueKeys_preserved demoHasher (lit "paul:x:\njohn:y:\n") { Username := lit "paul" }
    (lit "john") (lit "p") demoHasher_clean (by unfold uniqueKeys; decide)

/-! ## Serialised CreateUser calls -/

theorem find_eq_head_filter {α : Type} (p : α → Bool) (l : List α) :
    l.find? p = (l.filter p).head? := by
  induction l with
  | nil => rfl
  | cons a rest ih =>
    cases h : p a with
    | false =>
      simp only [List.find?_cons, List.filter_cons, h, Bool.false_eq_true, if_false]
      exact ih
    | true => simp only [List.find?_cons, List.filter_cons, h, if_true, List.head?_cons]

theorem hasRecord_eq_false_iff {file x : Str} :
    hasRecord file x = false ↔ (records file).filter (hasKey x) = [] := by
  rw [hasRecord, List.any_eq_false, List.filter_eq_nil_iff]

/-- A call of CreateUser leaves the records of every other username as they are. -/
theorem CreateUser_frame (H : Hasher) (file : Str) (user : User) (pw name cpw y : Str)
    (hname : canonicalUsername user = some name)
    (hgen : H.GenerateFromPassword pw = some cpw) (hnl : nl ∉ cpw)
    (hy : y ≠ QueryEscape name) :
    (records (CreateUser H file user pw).2).filter (hasKey y)
      = (records file).filter (hasKey y) := by
  rw [CreateUser_eq H file user pw name cpw hname hgen]
  cases hr : hasRecord file (QueryEscape name) with
  | true => simp
  | false =>
    simp only [Bool.false_eq_true, if_false]
    rw [records_created file user (canonicalUsername_ne_nil hname) hnl, List.filter_append]
    have hk : hasKey y (newRecord (QueryEscape name) cpw user) = false := by
      cases h : hasKey y (newRecord (QueryEscape name) cpw user) with
      | false => rfl
      | true => exact absurd (hasKey_unique h (hasKey_newRecord name cpw user)) hy
    simp [List.filter_cons, hk]

theorem createAll_frame (H : Hasher) (reqs : List (User × Str)) (y : Str) :
    ∀ file : Str,
      (∀ r ∈ reqs, ∃ name cpw, canonicalUsername r.1 = some name
        ∧ H.GenerateFromPassword r.2 = some cpw ∧ nl ∉ cpw ∧ y ≠ QueryEscape name)
      → (records (createAll H file reqs).2).filter (hasKey y)
          = (records file).filter (hasKey y) := by
  induction reqs with
  | nil => intro file _; rfl
  | cons r rest ih =>
    intro file h
    obtain ⟨user, pw⟩ := r
    obtain ⟨name, cpw, hname, hgen, hnl, hy⟩ := h (user, pw) (List.mem_cons_self _ _)
    simp only [createAll]
    rw [ih _ (fun q hq => h q (List.mem_cons_of_mem _ hq))]
    exact CreateUser_frame H file user pw name cpw y hname hgen hnl hy

theorem createAll_core (H : Hasher) (reqs : List (User × Str)) :
    ∀ file : Str,
      (∀ r ∈ reqs, ∃ name, canonicalUsername r.1 = some name
        ∧ hasRecord file (QueryEscape name) = false)
      → (reqs.map fun r => canonicalUsername r.1).Nodup
      → (∀ r ∈ reqs, ∃ cpw, H.GenerateFromPassword r.2 = some cpw
          ∧ H.CompareHashAndPassword cpw r.2 = .matched ∧ colon ∉ cpw ∧ nl ∉ cpw)
      → (∀ e ∈ (createAll H file reqs).1, e = none)
        ∧ ∀ r ∈ reqs, ∀ name, canonicalUsername r.1 = some name →
            Authenticate H (createAll H file reqs).2 name r.2
              = .ok (some { Username := name, ID := r.1.ID, FirstName := r.1.FirstName,
                            LastName := r.1.LastName, FullName := r.1.FullName,
                            Email := r.1.Email, Avatar := r.1.Avatar,
                            Provider := lit "htpasswd" })
            ∧ (records (createAll H file reqs).2).countP (hasKey (QueryEscape name)) = 1 := by
  induction reqs with
  | nil =>
    intro file _ _ _
    exact ⟨fun e he => by simp [createAll] at he, fun r hr => by simp at hr⟩
  | cons r rest ih =>
    intro file hname hdist hhash
    obtain ⟨user, pw⟩ := r
    obtain ⟨name, hcan, hfree⟩ := hname (user, pw) (List.mem_cons_self _ _)
    obtain ⟨cpw, hgen, hver, hcolon, hnl⟩ := hhash (user, pw) (List.mem_cons_self _ _)
    simp only [List.map_cons, List.nodup_cons] at hdist
    obtain ⟨hnotin, hdist2⟩ := hdist
    have hne := canonicalUsername_ne_nil hcan
    -- the other requests name other users
    have hother : ∀ q ∈ rest, ∀ n, canonicalUsername q.1 = some n
        → QueryEscape n ≠ QueryEscape name := by
      intro q hq n hn e
      have : n = name := QueryEscape_injective e
      apply hnotin
      rw [hcan, ← this, ← hn]
      exact List.mem_map_of_mem (fun r => canonicalUsername r.1) hq
    have hframe : ∀ q ∈ rest, ∃ n c, canonicalUsername q.1 = some n
        ∧ H.GenerateFromPassword q.2 = some c ∧ nl ∉ c
        ∧ QueryEscape name ≠ QueryEscape n := by
      intro q hq
      obtain ⟨n, hn, _⟩ := hname q (List.mem_cons_of_mem _ hq)
      obtain ⟨c, hc, _, _, hcnl⟩ := hhash q (List.mem_cons_of_mem _ hq)
      exact ⟨n, c, hn, hc, hcnl, fun e => hother q hq n hn e.symm⟩
    -- the requests that remain still find the file free of their usernames
    have hname2 : ∀ q ∈ rest, ∃ n, canonicalUsername q.1 = some n
        ∧ hasRecord (CreateUser H file user pw).2 (QueryEscape n) = false := by
      intro q hq
      obtain ⟨n, hn, hfr⟩ := hname q (List.mem_cons_of_mem _ hq)
      refine ⟨n, hn, ?_⟩
      rw [hasRecord_eq_false_iff,
        CreateUser_frame H file user pw name cpw _ hcan hgen hnl (hother q hq n hn)]
      exact hasRecord_eq_false_iff.mp hfr
    obtain ⟨herr, hrest⟩ := ih (CreateUser H file user pw).2 hname2 hdist2
      (fun q hq => hhash q (List.mem_cons_of_mem _ hq))
    have hfilter := createAll_frame H rest (QueryEscape name) (CreateUser H file user pw).2 hframe
    have hone : (CreateUser H file user pw).1 = none
        ∧ Authenticate H (CreateUser H file user pw).2 name pw
            = .ok (some { Username := name, ID := user.ID, FirstName := user.FirstName,
                          LastName := user.LastName, FullName := user.FullName,
                          Email := user.Email, Avatar := user.Avatar,
                          Provider := lit "htpasswd" }) := by
      rw [CreateUser_ok hcan hgen hfree]
      exact ⟨rfl, Authenticate_created H file user pw name cpw hne hfree hver hcolon hnl⟩
    refine ⟨?_, ?_⟩
    · intro e he
      simp only [createAll, List.mem_cons] at he
      rcases he with rfl | he
      · exact hone.1
      · exact herr e he
    · intro q hq n hn
      rcases List.mem_cons.mp hq with rfl | hq2
      · have hnn : n = name := Option.some.inj (hn.symm.trans hcan)
        subst hnn
        simp only [createAll]
        refine ⟨?_, ?_⟩
        · rw [Authenticate_eq, firstRecord, find_eq_head_filter, hfilter,
            ← find_eq_head_filter, ← firstRecord, ← Authenticate_eq]
          exact hone.2
        · rw [List.countP_eq_length_filter, hfilter, CreateUser_ok hcan hgen hfree,
            records_created file user hne hnl, List.filter_append,
            hasRecord_eq_false_iff.mp hfree]
          simp [List.filter_cons, hasKey_newRecord]
      · simp only [createAll]
        exact hrest q hq2 n hn

/-- C17: for a list of candidates with pairwise distinct canonical usernames, none of which
has a record in the file, and passwords that the hasher hashes to texts free of ':' and
'\n' which it verifies as a match, the CreateUser calls run one after the other in any
order all succeed; afterwards the file holds exactly one record for each canonical
username, and Authenticate with each canonical username and its password returns that
user. -/
theorem CreateUser_serialised (H : Hasher) (file : Str) (reqs order : List (User × Str))
    (hname : ∀ r ∈ reqs, ∃ name, canonicalUsername r.1 = some name
      ∧ hasRecord file (QueryEscape name) = false)
    (hdist : (reqs.map fun r => canonicalUsername r.1).Nodup)
    (hhash : ∀ r ∈ reqs, ∃ cpw, H.GenerateFromPassword r.2 = some cpw
      ∧ H.CompareHashAndPassword cpw r.2 = .matched ∧ colon ∉ cpw ∧ nl ∉ cpw)
    (horder : order.Perm reqs) :
    (createAll H file order).1.length = reqs.length
    ∧ (∀ e ∈ (createAll H file order).1, e = none)
    ∧ ∀ r ∈ reqs, ∀ name, canonicalUsername r.1 = some name →
        Authenticate H (createAll H file order).2 name r.2
          = .ok (some { Username := name, ID := r.1.ID, FirstName := r.1.FirstName,
                        LastName := r.1.LastName, FullName := r.1.FullName,
                        Email := r.1.Email, Avatar := r.1.Avatar,
                        Provider := lit "htpasswd" })
        ∧ (records (createAll H file order).2).countP (hasKey (QueryEscape name)) = 1 := by
  have h := createAll_core H order file
    (fun r hr => hname r (horder.mem_iff.mp hr))
    ((horder.map fun r => canonicalUsername r.1).nodup_iff.mpr hdist)
    (fun r hr => hhash r (horder.mem_iff.mp hr))
  have hlen : ∀ (l : List (User × Str)) (f : Str), (createAll H f l).1.length = l.length := by
    intro l
    induction l with
    | nil => intro f; rfl
    | cons r rest ih =>
      intro f
      obtain ⟨user, pw⟩ := r
      simp [createAll, ih]
  exact ⟨(hlen order file).trans horder.length_eq, h.1,
    fun r hr => h.2 r (horder.mem_iff.mpr hr)⟩

theorem CreateUser_serialised_witness :
    (createAll demoHasher []
        [(({ Email := lit "paul@beatles.com" } : User), lit "b"),
         (({ Username := lit "john" } : User), lit "a")]).1.length = 2
    ∧ Authenticate demoHasher
        (createAll demoHasher []
          [(({ Email := lit "paul@beatles.com" } : User), lit "b"),
           (({ Username := lit "john" } : User), lit "a")]).2 (lit "john") (lit "a")
      = .ok (some { Username := lit "john", Provider := lit "htpasswd" }) :=
  have h := CreateUser_serialised demoHasher []
    [(({ Username := lit "john" } : User), lit "a"),
     (({ Email := lit "paul@beatles.com" } : User), lit "b")]
    [(({ Email := lit "paul@beatles.com" } : User), lit "b"),
     (({ Username := lit "john" } : User), lit "a")]
    (fun r hr => by
      simp only [List.mem_cons, List.mem_singleton, List.not_mem_nil, or_false] at hr
      rcases hr with rfl | rfl
      · exact ⟨lit "john", by decide, by decide⟩
      · exact ⟨lit "paul@beatles.com", by decide, by decide⟩)
    (by decide)
    (fun r hr => by
      simp only [List.mem_cons, List.mem_singleton, List.not_mem_nil, or_false] at hr
      rcases hr with rfl | rfl
      · exact ⟨lit "a", by decide, by decide, by decide, by decide⟩
      · exact ⟨lit "b", by decide, by decide, by decide, by decide⟩)
    (List.Perm.swap _ _ _)
  ⟨h.1, (h.2.2 (({ Username := lit "john" } : User), lit "a") (by simp) (lit "john")
    (by decide)).1⟩

/-! ## The appended line and the fields of the candidate -/

theorem mem_insertByKey (p q : Str × Str) (l : Values) :
    q ∈ insertByKey p l ↔ q = p ∨ q ∈ l := by
  induction l with
  | nil => simp [insertByKey]
  | cons a rest ih =>
    cases h : strLess a.1 p.1 with
    | true =>
      simp only [insertByKey, h, if_true, List.mem_cons, ih]
      tauto
    | false => simp [insertByKey, h]

theorem mem_sortByKey (q : Str × Str) (l : Values) : q ∈ sortByKey l ↔ q ∈ l := by
  induction l with
  | nil => simp [sortByKey]
  | cons a rest ih => simp [sortByKey, mem_insertByKey, ih]

set_option maxHeartbeats 1000000 in
/-- The values of a user are the pairs of its non-empty attributes, in the order in which
`CreateUser` sets them. -/
theorem userValues_eq (user : User) :
    userValues user
      = optPair (lit "id") user.ID ++ optPair (lit "first_name") user.FirstName
        ++ optPair (lit "last_name") user.LastName ++ optPair (lit "full_name") user.FullName
        ++ optPair (lit "email") user.Email ++ optPair (lit "avatar") user.Avatar := by
  obtain ⟨k1, k2, k3, k4, k5, k6⟩ := attribute_keys
  by_cases h1 : user.ID = [] <;> by_cases h2 : user.FirstName = [] <;>
    by_cases h3 : user.LastName = [] <;> by_cases h4 : user.FullName = [] <;>
    by_cases h5 : user.Email = [] <;> by_cases h6 : user.Avatar = [] <;>
    simp [userValues, optPair, Values.Set, List.filter_cons, h1, h2, h3, h4, h5, h6,
      k1, k2, k3, k4, k5, k6]

theorem mem_userValues (user : User) (k v : Str) :
    (k, v) ∈ userValues user
      ↔ v ≠ [] ∧ (k, v) ∈ [(lit "id", user.ID), (lit "first_name", user.FirstName),
          (lit "last_name", user.LastName), (lit "full_name", user.FullName),
          (lit "email", user.Email), (lit "avatar", user.Avatar)] := by
  have hopt : ∀ key value : Str,
      (k, v) ∈ optPair key value ↔ v ≠ [] ∧ (k, v) = (key, value) := by
    intro key value
    unfold optPair
    split_ifs with hv
    · rw [List.mem_singleton]
      constructor
      · intro h
        refine ⟨?_, h⟩
        rw [(Prod.mk.inj h).2]
        exact hv
      · exact fun h => h.2
    · constructor
      · intro h
        cases h
      · rintro ⟨h1, h2⟩
        rw [(Prod.mk.inj h2).2] at h1
        exact absurd h1 hv
  rw [userValues_eq]
  simp only [List.mem_append, hopt, List.mem_cons, List.not_mem_nil, or_false]
  tauto

/-- C18: for every candidate with a canonical username, whatever bytes its fields hold, and
every hash free of ':' and of white space, the line that a successful CreateUser appends
holds no '\n' but its last byte, has no white space at either end before that '\n', and
splits on ':' into exactly three fields: the percent-encoded canonical username, the hash,
and an attributes field that parses without error to exactly the pairs of the non-empty
attributes of the candidate. -/
theorem CreateUser_no_injection (H : Hasher) (file : Str) (user : User) (pw name cpw : Str)
    (hname : canonicalUsername user = some name)
    (hgen : H.GenerateFromPassword pw = some cpw)
    (hcolon : colon ∉ cpw)
    (hspace : ∀ r ∈ spaceRunes, ¬ r <:+: cpw)
    (hok : (CreateUser H file user pw).1 = none) :
    (CreateUser H file user pw).2
        = unlines ((readLines file).map TrimSpace)
          ++ (newRecord (QueryEscape name) cpw user ++ [nl])
    ∧ nl ∉ newRecord (QueryEscape name) cpw user
    ∧ TrimSpace (newRecord (QueryEscape name) cpw user)
        = newRecord (QueryEscape name) cpw user
    ∧ TrimSpace (newRecord (QueryEscape name) cpw user ++ [nl])
        = newRecord (QueryEscape name) cpw user
    ∧ Split (newRecord (QueryEscape name) cpw user) colon
        = [QueryEscape name, cpw, (userValues user).Encode]
    ∧ (ParseQuery (userValues user).Encode).2 = false
    ∧ (∀ k v, (k, v) ∈ (ParseQuery (userValues user).Encode).1
        ↔ v ≠ [] ∧ (k, v) ∈ [(lit "id", user.ID), (lit "first_name", user.FirstName),
            (lit "last_name", user.LastName), (lit "full_name", user.FullName),
            (lit "email", user.Email), (lit "avatar", user.Avatar)]) := by
  have hne := canonicalUsername_ne_nil hname
  have hnl := nl_not_mem_of_spaceFree hspace
  have hfree : hasRecord file (QueryEscape name) = false := by
    rw [CreateUser_eq H file user pw name cpw hname hgen] at hok
    cases h : hasRecord file (QueryEscape name) with
    | false => rfl
    | true => simp [h] at hok
  have hgood := newRecord_good user hne hnl
  refine ⟨?_, hgood.1, TrimSpace_of_trimmed hgood.2, TrimSpace_append_nl hgood.2,
    Split_newRecord user hcolon, ?_, ?_⟩
  · rw [CreateUser_ok hname hgen hfree]
    rfl
  · rw [ParseQuery_Encode]
  · intro k v
    rw [ParseQuery_Encode, mem_sortByKey, mem_userValues]

theorem CreateUser_no_injection_witness :
    Split (newRecord (QueryEscape (lit "a:b\nc d"))
        (lit "$2a$10$h") { Username := lit "a:b\nc d", FullName := lit "x&y=z:\n" }) colon
      = [lit "a%3Ab%0Ac+d", lit "$2a$10$h", lit "full_name=x%26y%3Dz%3A%0A"] :=
  (CreateUser_no_injection
    ⟨fun _ => some (lit "$2a$10$h"), fun _ _ => .matched⟩ []
    { Username := lit "a:b\nc d", FullName := lit "x&y=z:\n" } (lit "p") (lit "a:b\nc d")
    (lit "$2a$10$h") (by decide) (by decide) (by decide) (by decide)
    (by decide)).2.2.2.2.1.trans (by decide)

end HTPasswd
